import Mathlib

/-!
Verification development for the UK-singles-chart playlist synchronization
script (`src/script.py`).  The Python source is shallowly embedded: pure
string-processing functions become Lean functions on `List Char` (with
`String` wrappers), the stateful reconciliation loops become folds over
explicit state records, and every external effect (catalog search, playlist
mutation, the lenient pandas date parser) is represented either as an
explicit oracle parameter or as a reified list of calls.

Modelling conventions for Python semantics:
* Python `str.strip()` / regex `\s` are Unicode-aware; we model the
  whitespace class by the ASCII whitespace characters plus NBSP (U+00A0)
  and thin space (U+2009), the only non-ASCII whitespace the script
  manipulates explicitly.
* Python `re` word characters (`\b`, `\w`) and digits are modelled by
  their ASCII classes, and `str.lower()` by ASCII lowercasing.
* Python truthiness of `None` / `""` values is modelled explicitly
  (`pyTruthy`).
-/

namespace EveryNumberOne

/-- Whitespace class used to model Python `str.strip()` and regex `\s`:
ASCII whitespace plus NBSP (U+00A0) and thin space (U+2009). -/
def pyWs (c : Char) : Bool :=
  c = ' ' ∨ c = '\t' ∨ c = '\n' ∨ c = '\r' ∨ c = '\x0b' ∨ c = '\x0c' ∨
  c = ' ' ∨ c = ' '

/-- Word characters for regex `\b` boundaries (ASCII model of `\w`). -/
def isWordChar (c : Char) : Bool := c.isAlphanum ∨ c = '_'

/-- ASCII lowercasing, modelling `str.lower()` on the characters the
script manipulates. -/
def pyLower (c : Char) : Char :=
  if 'A' ≤ c ∧ c ≤ 'Z' then Char.ofNat (c.toNat + 32) else c

/-- Drop characters satisfying `p` from the front (one side of Python
`str.strip`). -/
def ltrimBy (p : Char → Bool) (l : List Char) : List Char := l.dropWhile p

/-- Drop characters satisfying `p` from the back. -/
def rtrimBy (p : Char → Bool) (l : List Char) : List Char :=
  (l.reverse.dropWhile p).reverse

/-- Python `str.strip(chars)`: drop from both ends. -/
def trimBy (p : Char → Bool) (l : List Char) : List Char :=
  ltrimBy p (rtrimBy p l)

/-- Python `str.strip()` (whitespace). -/
def pyStrip (l : List Char) : List Char := trimBy pyWs l

/-- Characters of a string literal. -/
def strL (s : String) : List Char := s.data

/-! ## `clean_song_title` (script.py lines 135-138)

`song.strip('"')`, then `re.sub(r"\[.*?\]|\(.*?\)", "", song)`, then
`song.strip()`.  The regex removal is modelled by a scanner: at an opening
bracket the non-greedy `.*?` matches up to the first matching closer on the
same line (`.` does not match newline); if there is none, the opener is
kept and scanning continues with the next character, exactly as `re.sub`
continues after a failed match attempt. -/

/-- Index of the first occurrence of `close` with no intervening newline
(the target of a non-greedy `.*?` continuation, since `.` does not match
newline). -/
def findCloseIdx (close : Char) : List Char → Option Nat
  | [] => none
  | c :: rest =>
    if c = close then some 0
    else if c = '\n' then none
    else (findCloseIdx close rest).map (· + 1)

/-- Scanner for `re.sub(r"\[.*?\]|\(.*?\)", "", ·)`. -/
def removeBrackets : List Char → List Char
  | [] => []
  | c :: rest =>
    if c = '[' then
      match findCloseIdx ']' rest with
      | some i => removeBrackets (rest.drop (i + 1))
      | none => c :: removeBrackets rest
    else if c = '(' then
      match findCloseIdx ')' rest with
      | some i => removeBrackets (rest.drop (i + 1))
      | none => c :: removeBrackets rest
    else c :: removeBrackets rest
termination_by l => l.length
decreasing_by all_goals (simp only [List.length_drop, List.length_cons]; omega)

/-- `clean_song_title` on character lists. -/
def clean_song_title_l (l : List Char) : List Char :=
  pyStrip (removeBrackets (trimBy (fun c => c = '"') l))

/-- `clean_song_title(song)` (script.py line 135). -/
def clean_song_title (s : String) : String := ⟨clean_song_title_l s.data⟩

/-! ## Regex-token matcher

The remaining regexes of the script (`base_song_key` tag stripping, the
apostrophe-year pattern, `base_artist_key` separator normalization) all
fall in a small fragment: word boundaries, literals, optional literals,
whitespace runs, fixed-width digit groups and single-character
alternatives.  `matchToks` matches one pattern at the head of the input
(returning the last consumed character, needed for later `\b` checks of
the scan, and the remaining suffix), and `reSub` is `re.sub`: leftmost
non-overlapping matches, each replaced by `repl`, scanning resuming after
the match. -/

inductive Tok where
  | lit : List Char → Tok
  | litOpt : List Char → Tok
  | ws1 : Tok
  | ws0 : Tok
  | digits : Nat → Tok
  | anyOf : List Char → Tok
  | wb : Tok
deriving DecidableEq

/-- Remove a literal from the head of the input. -/
def stripLit : List Char → List Char → Option (List Char)
  | [], l => some l
  | _ :: _, [] => none
  | c :: s, d :: l => if c = d then stripLit s l else none

/-- Last character of `s` if nonempty, else the fallback `prev`. -/
def lastOr (s : List Char) (prev : Option Char) : Option Char :=
  match s.getLast? with
  | some c => some c
  | none => prev

/-- Regex `\b`: the word-character status changes between the previous
character (`none` at the string edge) and the next one. -/
def boundary (prev next : Option Char) : Bool :=
  (match prev with | some c => isWordChar c | none => false)
    != (match next with | some c => isWordChar c | none => false)

def matchToks : List Tok → Option Char → List Char → Option (Option Char × List Char)
  | [], prev, l => some (prev, l)
  | Tok.wb :: ts, prev, l =>
      if boundary prev l.head? then matchToks ts prev l else none
  | Tok.lit s :: ts, prev, l =>
      match stripLit s l with
      | some l2 => matchToks ts (lastOr s prev) l2
      | none => none
  | Tok.litOpt s :: ts, prev, l =>
      (match stripLit s l with
       | some l2 => matchToks ts (lastOr s prev) l2
       | none => none) <|> matchToks ts prev l
  | Tok.ws1 :: ts, prev, l =>
      if (l.takeWhile pyWs).isEmpty then none
      else matchToks ts (lastOr (l.takeWhile pyWs) prev) (l.dropWhile pyWs)
  | Tok.ws0 :: ts, prev, l =>
      matchToks ts (lastOr (l.takeWhile pyWs) prev) (l.dropWhile pyWs)
  | Tok.digits n :: ts, prev, l =>
      if (l.take n).length = n ∧ (l.take n).all Char.isDigit then
        matchToks ts (lastOr (l.take n) prev) (l.drop n)
      else none
  | Tok.anyOf cs :: ts, prev, l =>
      match l with
      | [] => none
      | c :: l2 => if c ∈ cs then matchToks ts (some c) l2 else none

/-- First alternative that matches (regex alternation). -/
def matchAlts : List (List Tok) → Option Char → List Char → Option (Option Char × List Char)
  | [], _, _ => none
  | ts :: alts, prev, l => matchToks ts prev l <|> matchAlts alts prev l

/-- `re.sub(pattern, repl, ·)` for patterns in the token fragment:
replace each leftmost match by `repl` and resume scanning after it.
`prev` is the character before the current scan position (for `\b`).
The length guard mirrors that all patterns used here consume at least one
character. -/
def reSub (alts : List (List Tok)) (repl : List Char) : Option Char → List Char → List Char
  | _, [] => []
  | prev, c :: rest =>
    match matchAlts alts prev (c :: rest) with
    | some (p2, rem) =>
      if hlt : rem.length < (c :: rest).length then repl ++ reSub alts repl p2 rem
      else c :: reSub alts repl (some c) rest
    | none => c :: reSub alts repl (some c) rest
termination_by _ l => l.length
decreasing_by all_goals (first | exact hlt | simp)

/-! ## `base_song_key` (script.py lines 140-171) -/

/-- Pattern `\s*['’]\d{2}\b` (apostrophe-year suffix like `'98`). -/
def yearToks : List Tok :=
  [Tok.ws0, Tok.anyOf ['\'', '’'], Tok.digits 2, Tok.wb]

/-- Pattern `\b\d{4}\s*remaster(?:ed)?\b`. -/
def tagRemYear : List Tok :=
  [Tok.wb, Tok.digits 4, Tok.ws0, Tok.lit (strL "remaster"), Tok.litOpt (strL "ed"), Tok.wb]

/-- Pattern `\bremaster(?:ed)?\s*\d{4}\b`. -/
def tagYearRem : List Tok :=
  [Tok.wb, Tok.lit (strL "remaster"), Tok.litOpt (strL "ed"), Tok.ws0, Tok.digits 4, Tok.wb]

/-- Pattern `\bremaster(?:ed)?\b`. -/
def tagRem : List Tok := [Tok.wb, Tok.lit (strL "remaster"), Tok.litOpt (strL "ed"), Tok.wb]

/-- Pattern `\bradio\s+edit\b`. -/
def tagRadioEdit : List Tok := [Tok.wb, Tok.lit (strL "radio"), Tok.ws1, Tok.lit (strL "edit"), Tok.wb]

/-- Pattern `\bsingle\s+version\b`. -/
def tagSingleVersion : List Tok :=
  [Tok.wb, Tok.lit (strL "single"), Tok.ws1, Tok.lit (strL "version"), Tok.wb]

/-- Pattern `\boriginal\s+mix\b`. -/
def tagOriginalMix : List Tok :=
  [Tok.wb, Tok.lit (strL "original"), Tok.ws1, Tok.lit (strL "mix"), Tok.wb]

/-- Pattern `\bmono\b`. -/
def tagMono : List Tok := [Tok.wb, Tok.lit (strL "mono"), Tok.wb]

/-- Pattern `\bstereo\b`. -/
def tagStereo : List Tok := [Tok.wb, Tok.lit (strL "stereo"), Tok.wb]

/-- Pattern `\bedit\b`. -/
def tagEdit : List Tok := [Tok.wb, Tok.lit (strL "edit"), Tok.wb]

/-- Pattern `\bmix\b`. -/
def tagMix : List Tok := [Tok.wb, Tok.lit (strL "mix"), Tok.wb]

/-- Pattern `\bversion\b`. -/
def tagVersion : List Tok := [Tok.wb, Tok.lit (strL "version"), Tok.wb]

/-- The eleven tag patterns of `base_song_key`, in source order. -/
def tagToksList : List (List Tok) :=
  [tagRemYear, tagYearRem, tagRem, tagRadioEdit, tagSingleVersion, tagOriginalMix,
   tagMono, tagStereo, tagEdit, tagMix, tagVersion]

/-- Sequential application of the tag-stripping substitutions. -/
def applyTags (l : List Char) : List Char :=
  tagToksList.foldl (fun acc p => reSub [p] [] none acc) l

/-- `re.sub(r"\s*-\s*$", "", t)`: remove a final hyphen together with the
whitespace around it (at most one hyphen can be anchored at `$`). -/
def stripTrailingHyphen (l : List Char) : List Char :=
  let r := rtrimBy pyWs l
  match r.getLast? with
  | some '-' => rtrimBy pyWs r.dropLast
  | _ => l

/-- `re.sub(r"\s+", " ", t)`: collapse whitespace runs to single spaces.
`prevWs` records whether the previous character was part of a run. -/
def collapseWsGo : Bool → List Char → List Char
  | _, [] => []
  | prevWs, c :: rest =>
    if pyWs c then
      if prevWs then collapseWsGo true rest
      else ' ' :: collapseWsGo true rest
    else c :: collapseWsGo false rest

/-- The intermediate of `base_song_key` after lowercasing, apostrophe-year
removal and tag stripping (just before the trailing-hyphen removal). -/
def tagStripped (l : List Char) : List Char :=
  applyTags (reSub [yearToks] [] none ((clean_song_title_l l).map pyLower))

/-- `base_song_key` on character lists (script.py lines 140-171). -/
def base_song_key_l (l : List Char) : List Char :=
  pyStrip (collapseWsGo false (stripTrailingHyphen (tagStripped l)))

/-- `base_song_key(song)`. -/
def base_song_key (s : String) : String := ⟨base_song_key_l s.data⟩

/-! ## `clean_artist_name` (script.py lines 173-175)

`re.split(r"\s+(featuring|feat\.|ft\.|with|&)\s+", artist, flags=IGNORECASE)[0]`
followed by `.strip()`: the string is truncated at the first position where
one-or-more whitespace, a separator word and one-or-more whitespace follow. -/

/-- Case-insensitive literal match (pattern given lowercase). -/
def stripLitCI : List Char → List Char → Option (List Char)
  | [], l => some l
  | _ :: _, [] => none
  | c :: s, d :: l => if c = pyLower d then stripLitCI s l else none

/-- The separator alternatives of the featuring-split regex. -/
def sepWords : List (List Char) :=
  [strL "featuring", strL "feat.", strL "ft.", strL "with", strL "&"]

/-- Does a separator word followed by whitespace start here? -/
def sepWordAt (r : List Char) : Bool :=
  sepWords.any fun w =>
    match stripLitCI w r with
    | some r2 => !(r2.takeWhile pyWs).isEmpty
    | none => false

/-- Does the full separator pattern `\s+(sep)\s+` match at this position? -/
def sepHere (l : List Char) : Bool :=
  !(l.takeWhile pyWs).isEmpty && sepWordAt (l.dropWhile pyWs)

/-- Prefix of the input before the first separator match. -/
def truncAtSep : List Char → List Char
  | [] => []
  | c :: rest => if sepHere (c :: rest) then [] else c :: truncAtSep rest

/-- `clean_artist_name` on character lists. -/
def clean_artist_name_l (l : List Char) : List Char := pyStrip (truncAtSep l)

/-- `clean_artist_name(artist)` (script.py line 173). -/
def clean_artist_name (s : String) : String := ⟨clean_artist_name_l s.data⟩

/-! ## `base_artist_key` (script.py lines 234-251) -/

/-- Alternatives of `re.sub(r"\s*&\s*|\s+and\s+|\s+with\s+", ",", a)`. -/
def artistSepAlts : List (List Tok) :=
  [ [Tok.ws0, Tok.lit ['&'], Tok.ws0],
    [Tok.ws1, Tok.lit (strL "and"), Tok.ws1],
    [Tok.ws1, Tok.lit (strL "with"), Tok.ws1] ]

/-- `base_artist_key` on character lists. -/
def base_artist_key_l (artist : List Char) : List Char :=
  let a := (clean_artist_name_l artist).map pyLower
  let a2 := reSub artistSepAlts [','] none a
  let parts := ((a2.splitOn ',').map pyStrip).filter (fun p => !p.isEmpty)
  match parts with
  | [] => a2
  | _ :: _ => List.intercalate (strL " & ") (parts.take 2)

/-- `base_artist_key(artist)`. -/
def base_artist_key (s : String) : String := ⟨base_artist_key_l s.data⟩

/-- `base_artist_set` (script.py lines 431-433, local to the search):
splits the canonical artist key on `&`, strips the parts and keeps the
nonempty ones as a set. -/
def base_artist_set_l (a : List Char) : Finset String :=
  (((((base_artist_key_l a).splitOn '&').map
      (fun p => (⟨pyStrip p⟩ : String))).filter (fun s => s ≠ "")).toFinset)

/-- `base_artist_set(a)` on strings. -/
def base_artist_set (s : String) : Finset String := base_artist_set_l s.data

/-- The canonical deduplication/cache key
`f"{base_song_key(song)}|{base_artist_key(artist)}"`
(script.py lines 502, 507, 550, 554). -/
def pairKey (song artist : String) : String :=
  base_song_key song ++ "|" ++ base_artist_key artist

/-! ## Catalog search (script.py lines 404-494)

The Spotify client is abstracted as an oracle from query strings to the
(at most five) candidate tracks the API returns.  A search result item is
a `SpotifyTrack`; the script reads its id, title, artist names, album
release date and popularity. -/

structure SpotifyTrack where
  id : String
  name : String
  artists : List String
  release_date : String
  popularity : Option Nat
deriving DecidableEq

/-- Numeric value of a digit string. -/
def digitVal (c : Char) : Nat := c.toNat - '0'.toNat

def digitsToNat (l : List Char) : Nat := l.foldl (fun acc c => acc * 10 + digitVal c) 0

/-- `re.match(r"^(\d{4})", rel_date)` and `int(...)`
(script.py lines 460-464). -/
def relYear (release_date : String) : Option Nat :=
  if (release_date.data.take 4).length = 4 ∧ (release_date.data.take 4).all Char.isDigit then
    some (digitsToNat (release_date.data.take 4))
  else none

/-- `" & ".join(artists[:2]) if artists else ""` (script.py line 457). -/
def artistJoin (artists : List String) : String :=
  ⟨List.intercalate (strL " & ") ((artists.take 2).map String.data)⟩

/-- Candidate scoring (script.py lines 452-480): +5 for an equal song key,
`min(inter1,2)*2` for overlap with the cleaned-artist set,
`min(inter2,1)` for overlap with the original-credit set, +3/+1 for the
release year, and `popularity // 30` as popularity bonus.  The `if
chart_year and rel_year` truthiness test of the source (an int `0` is
falsy) is modelled explicitly. -/
def scoreCandidate (desired_song_key : String)
    (desired_artist_set desired_orig_set : Finset String)
    (chart_year : Option Nat) (tr : SpotifyTrack) : Nat :=
  let song_key := base_song_key tr.name
  let artist_set := base_artist_set (artistJoin tr.artists)
  let s_title : Nat := if song_key = desired_song_key then 5 else 0
  let inter1 := (artist_set ∩ desired_artist_set).card
  let inter2 := (artist_set ∩ desired_orig_set).card
  let s_artist := min inter1 2 * 2 + min inter2 1
  let s_year : Nat :=
    match chart_year, relYear tr.release_date with
    | some cy, some ry =>
      if cy ≠ 0 ∧ ry ≠ 0 then
        if ry = cy then 3
        else if ((ry : Int) - (cy : Int)).natAbs = 1 then 1 else 0
      else 0
    | _, _ => 0
  let s_pop := tr.popularity.getD 0 / 30
  s_title + s_artist + s_year + s_pop

/-- The query cascade (script.py lines 410-429): query string paired with
its description, in the exact order the source builds the list.  The
`if chart_year:` truthiness test (None or 0 falsy) is modelled. -/
def searchQueries (song artist original_artist : String) (chart_year : Option Nat) :
    List (String × String) :=
  let clean_song := clean_song_title song
  let clean_artist := clean_artist_name artist
  let yearQs : List (String × String) :=
    match chart_year with
    | some yr =>
      if yr ≠ 0 then
        [ ("track:\"" ++ clean_song ++ "\" artist:\"" ++ clean_artist ++ "\" year:" ++ toString yr,
           "exact+year"),
          ("track:\"" ++ clean_song ++ "\" artist:\"" ++ original_artist ++ "\" year:" ++ toString yr,
           "orig-artist+year"),
          ("track:\"" ++ clean_song ++ "\" year:" ++ toString yr, "song+year"),
          (clean_song ++ " " ++ clean_artist ++ " year:" ++ toString yr, "kw+year"),
          ("track:\"" ++ clean_song ++ "\" artist:\"" ++ clean_artist ++ "\" year:" ++
             toString yr ++ "-" ++ toString (yr + 1), "exact+year-range"),
          ("track:\"" ++ clean_song ++ "\" artist:\"" ++ original_artist ++ "\" year:" ++
             toString yr ++ "-" ++ toString (yr + 1), "orig-artist+year-range") ]
      else []
    | none => []
  yearQs ++
  [ ("track:\"" ++ clean_song ++ "\" artist:\"" ++ clean_artist ++ "\"", "exact"),
    ("track:\"" ++ clean_song ++ "\"", "song only"),
    (clean_song ++ " " ++ clean_artist, "keywords"),
    ("track:\"" ++ clean_song ++ "\" artist:\"" ++ original_artist ++ "\"", "orig-artist") ]

/-- Running best candidate: `best` / `best_score` (initially `None` / `-1`). -/
structure SearchState where
  best : Option String
  bestScore : Int
deriving DecidableEq

/-- Per-candidate update (script.py lines 482-484): strict improvement. -/
def stepCandidate (score : SpotifyTrack → Nat) (st : SearchState) (tr : SpotifyTrack) :
    SearchState :=
  if (score tr : Int) > st.bestScore then ⟨some tr.id, (score tr : Int)⟩ else st

/-- The query loop (script.py lines 442-494): process each query's
candidates, short-circuit when `best is not None and best_score >= 5`,
and finally return `best` (which is `None` when nothing was found). -/
def runQueries (oracle : String → List SpotifyTrack) (score : SpotifyTrack → Nat) :
    List (String × String) → SearchState → Option String
  | [], st => st.best
  | (q, _) :: rest, st =>
    let st2 := (oracle q).foldl (stepCandidate score) st
    if st2.best.isSome ∧ st2.bestScore ≥ 5 then st2.best
    else runQueries oracle score rest st2

/-- Whether the short-circuit `best_score >= 5` return fires at some query
of the cascade. -/
def runTriggers (oracle : String → List SpotifyTrack) (score : SpotifyTrack → Nat) :
    List (String × String) → SearchState → Bool
  | [], _ => false
  | (q, _) :: rest, st =>
    let st2 := (oracle q).foldl (stepCandidate score) st
    if st2.best.isSome ∧ st2.bestScore ≥ 5 then true
    else runTriggers oracle score rest st2

/-- All candidates returned across a query list, in scan order. -/
def allItems (oracle : String → List SpotifyTrack) (qs : List (String × String)) :
    List SpotifyTrack :=
  (qs.map (fun q => oracle q.1)).flatten

/-- `search_spotify_track(song, artist, original_artist, chart_date)`
(script.py lines 404-494), with the Spotify client as oracle and the
chart date reduced to its year. -/
def search_spotify_track (oracle : String → List SpotifyTrack)
    (song artist original_artist : String) (chart_year : Option Nat) : Option String :=
  runQueries oracle
    (scoreCandidate (base_song_key song) (base_artist_set artist)
      (base_artist_set original_artist) chart_year)
    (searchQueries song artist original_artist chart_year)
    ⟨none, -1⟩

/-! ## Resolution cache (script.py lines 507-517 and 554-562)

Both `add_song_to_playlist` and `reorder_playlist_chronologically` resolve
an entry the same way: look the canonical key up in `track_cache`; when the
cached value is truthy, use it with no search; otherwise call
`search_spotify_track` once and, when the result is truthy, write it into
the cache.  The cache is an association list (first binding wins, new
bindings prepended, which models dict update/lookup), and the final
component counts the search calls made (0 or 1). -/

/-- Python truthiness of an optional string: `None` and `""` are falsy. -/
def pyTruthy : Option String → Bool
  | none => false
  | some s => !s.isEmpty

/-- The cache-first resolution step shared by both call sites. -/
def resolve_track_id (cache : List (String × String)) (key : String)
    (searchResult : Option String) : Option String × List (String × String) × Nat :=
  let track_id := List.lookup key cache
  if pyTruthy track_id then (track_id, cache, 0)
  else if pyTruthy searchResult then (searchResult, (key, searchResult.getD "") :: cache, 1)
  else (searchResult, cache, 1)

/-! ## `reorder_playlist_chronologically` (script.py lines 542-585) -/

/-- A harvested chart entry (the dict built in `parse_wiki_table`);
`date` is an abstract chronological timestamp. -/
structure ChartEntry where
  date : Nat
  song : String
  artist : String
  original_artist : String
  original_song : String
deriving DecidableEq

/-- State of the reorder loop: `unique_pairs`, the live `track_cache`,
`seen_track_ids`, the ordered `track_ids_sorted`, and `not_found_pairs`
(a set, modelled as a duplicate-free list). -/
structure ReorderState where
  unique_pairs : List String
  track_cache : List (String × String)
  seen_track_ids : List String
  track_ids_sorted : List String
  not_found : List (String × String)
deriving DecidableEq

/-- Lines 554-562 of the loop body: cache-first resolution of the entry,
updating the cache on a successful search and the not-found set on a
failed one. -/
def reorderResolve (oracle : ChartEntry → Option String) (st1 : ReorderState) (e : ChartEntry)
    (pk : String) : Option String × ReorderState :=
  let cached := List.lookup pk st1.track_cache
  if pyTruthy cached then (cached, st1)
  else
    let sr := oracle e
    if pyTruthy sr then
      (sr, { st1 with track_cache := (pk, sr.getD "") :: st1.track_cache })
    else
      (sr, { st1 with not_found :=
        if (e.original_song, e.original_artist) ∈ st1.not_found then st1.not_found
        else (e.original_song, e.original_artist) :: st1.not_found })

/-- Lines 563-570 of the loop body: queue the resolved id unless it is
falsy or already queued. -/
def reorderEmit (track_id : Option String) (st2 : ReorderState) : ReorderState :=
  if pyTruthy track_id then
    if track_id.getD "" ∈ st2.seen_track_ids then st2
    else { st2 with seen_track_ids := track_id.getD "" :: st2.seen_track_ids,
                    track_ids_sorted := st2.track_ids_sorted ++ [track_id.getD ""] }
  else st2

/-- One iteration of the reorder loop (script.py lines 549-570); `oracle`
abstracts the `search_spotify_track` call for the entry. -/
def reorderStep (oracle : ChartEntry → Option String) (st : ReorderState) (e : ChartEntry) :
    ReorderState :=
  let pk := pairKey e.song e.artist
  if pk ∈ st.unique_pairs then st
  else
    let r := reorderResolve oracle { st with unique_pairs := pk :: st.unique_pairs } e pk
    reorderEmit r.1 r.2

/-- Initial loop state over an initial persistent cache. -/
def reorderInit (cache0 : List (String × String)) : ReorderState := ⟨[], cache0, [], [], []⟩

/-- The whole resolution phase of `reorder_playlist_chronologically`
applied to the (already chronologically sorted) harvested entries. -/
def runReorder (oracle : ChartEntry → Option String) (cache0 : List (String × String))
    (entries : List ChartEntry) : ReorderState :=
  entries.foldl (reorderStep oracle) (reorderInit cache0)

/-- Specification-side helper: keep only the first occurrence of each
canonical key (`seen` accumulates keys already encountered). -/
def dedupFirstByKey : List String → List ChartEntry → List ChartEntry
  | _, [] => []
  | seen, e :: rest =>
    if pairKey e.song e.artist ∈ seen then dedupFirstByKey seen rest
    else e :: dedupFirstByKey (pairKey e.song e.artist :: seen) rest

/-- Batches of 100 track ids (`range(0, len, 100)` slicing,
script.py lines 580-581). -/
def chunks100 : List String → List (List String)
  | [] => []
  | x :: rest => (x :: rest).take 100 :: chunks100 ((x :: rest).drop 100)
termination_by l => l.length
decreasing_by simp only [List.length_drop, List.length_cons]; omega

/-- Mutating playlist API calls made by the reorder operation. -/
inductive PlaylistCall where
  | replaceItems : List String → PlaylistCall
  | addItems : List String → PlaylistCall
deriving DecidableEq

/-- The playlist mutations issued after resolution (script.py lines
572-581): nothing in debug mode, nothing when no ids resolved, else one
wholesale replace with `[]` followed by ordered batches of 100. -/
def reorderCalls (debug : Bool) (ids : List String) : List PlaylistCall :=
  if debug then []
  else if ids.isEmpty then []
  else PlaylistCall.replaceItems [] :: (chunks100 ids).map PlaylistCall.addItems

/-! ## Date parsing (script.py lines 177-232)

`parse_date_with_fallback` is embedded fully except for the final
`pd.to_datetime` fallback, which is an external library call wrapped in
`try/except`; it is abstracted as a total oracle `pandasParse` over the
candidate strings (any total function, covering every behaviour of the
lenient parser).  `datetime.strptime` with the four formats used is
modelled concretely, including calendar validation and the leap-year rule
(the format's default year is 1900, so `29 February` cannot parse without
an explicit year), and `datetime.replace(year=yy)` raising on out-of-range
years is modelled by the `1 ≤ y ≤ 9999` guard. -/

structure PyDate where
  year : Nat
  month : Nat
  day : Nat
deriving DecidableEq

def monthNamesFull : List (List Char) :=
  [strL "january", strL "february", strL "march", strL "april", strL "may", strL "june",
   strL "july", strL "august", strL "september", strL "october", strL "november",
   strL "december"]

def monthNamesAbbr : List (List Char) :=
  [strL "jan", strL "feb", strL "mar", strL "apr", strL "may", strL "jun",
   strL "jul", strL "aug", strL "sep", strL "oct", strL "nov", strL "dec"]

def isLeap (y : Nat) : Bool := y % 4 = 0 ∧ (y % 100 ≠ 0 ∨ y % 400 = 0)

def daysInMonth (y m : Nat) : Nat :=
  if m = 2 then (if isLeap y then 29 else 28)
  else if m = 4 ∨ m = 6 ∨ m = 9 ∨ m = 11 then 30
  else 31

/-- `%d`: the strptime day regex `3[01]|[12]\d|0[1-9]|[1-9]`. -/
def parseDay : List Char → Option (Nat × List Char)
  | c1 :: c2 :: rest =>
    if c1 = '3' ∧ (c2 = '0' ∨ c2 = '1') then some (30 + digitVal c2, rest)
    else if (c1 = '1' ∨ c1 = '2') ∧ c2.isDigit then
      some (digitVal c1 * 10 + digitVal c2, rest)
    else if c1 = '0' ∧ c2.isDigit ∧ c2 ≠ '0' then some (digitVal c2, rest)
    else if c1.isDigit ∧ c1 ≠ '0' then some (digitVal c1, c2 :: rest)
    else none
  | [c1] => if c1.isDigit ∧ c1 ≠ '0' then some (digitVal c1, []) else none
  | [] => none

/-- `%B`/`%b`: case-insensitive month-name alternation, value starting at 1. -/
def parseMonthGo : List (List Char) → Nat → List Char → Option (Nat × List Char)
  | [], _, _ => none
  | w :: ws, i, l =>
    match stripLitCI w l with
    | some r => some (i, r)
    | none => parseMonthGo ws (i + 1) l

def parseMonth (names : List (List Char)) (l : List Char) : Option (Nat × List Char) :=
  parseMonthGo names 1 l

/-- Whitespace in a strptime format string matches `\s+`. -/
def dropWs1 (l : List Char) : Option (List Char) :=
  if (l.takeWhile pyWs).isEmpty then none else some (l.dropWhile pyWs)

/-- `%Y`: exactly four digits. -/
def parseYear4 (l : List Char) : Option (Nat × List Char) :=
  if (l.take 4).length = 4 ∧ (l.take 4).all Char.isDigit then
    some (digitsToNat (l.take 4), l.drop 4)
  else none

/-- `datetime.strptime(cand, "%d %B %Y")` (or `%b`): full match plus the
calendar validation performed by the datetime constructor. -/
def strptimeDMY (names : List (List Char)) (l : List Char) : Option PyDate := do
  let (d, r1) ← parseDay l
  let r2 ← dropWs1 r1
  let (m, r3) ← parseMonth names r2
  let r4 ← dropWs1 r3
  let (y, r5) ← parseYear4 r4
  if r5 = [] ∧ 1 ≤ y ∧ 1 ≤ d ∧ d ≤ daysInMonth y m then some ⟨y, m, d⟩ else none

/-- `datetime.strptime(cand, "%d %B")` (or `%b`): the default year is
1900, so the day is validated against a non-leap February. -/
def strptimeDM (names : List (List Char)) (l : List Char) : Option (Nat × Nat) := do
  let (d, r1) ← parseDay l
  let r2 ← dropWs1 r1
  let (m, r3) ← parseMonth names r2
  if r3 = [] ∧ 1 ≤ d ∧ d ≤ daysInMonth 1900 m then some (m, d) else none

/-- A day-month format attempt followed by `dt.replace(year=yy)`
(script.py lines 216-219): no year available means `continue`, and an
out-of-range replacement year raises (caught, `continue`). -/
def tryFmtDM (names : List (List Char)) (yy : Option Nat) (cand : List Char) :
    Option PyDate :=
  match strptimeDM names cand with
  | some (m, d) =>
    match yy with
    | some y => if 1 ≤ y ∧ y ≤ 9999 then some ⟨y, m, d⟩ else none
    | none => none
  | none => none

/-- The inner format loop for one candidate (script.py lines 210-222). -/
def strptimeCandidate (yy : Option Nat) (cand : List Char) : Option PyDate :=
  strptimeDMY monthNamesFull cand <|> strptimeDMY monthNamesAbbr cand <|>
  tryFmtDM monthNamesFull yy cand <|> tryFmtDM monthNamesAbbr yy cand

/-- The outer candidate loop (script.py lines 211-222). -/
def tryCandidates (yy : Option Nat) : List (List Char) → Option PyDate
  | [] => none
  | c :: cs => strptimeCandidate yy c <|> tryCandidates yy cs

/-- `re.search(r"(19|20)\d{2}", text)` at one position. -/
def yearAt : List Char → Option Nat
  | c1 :: c2 :: c3 :: c4 :: _ =>
    if ((c1 = '1' ∧ c2 = '9') ∨ (c1 = '2' ∧ c2 = '0')) ∧ c3.isDigit ∧ c4.isDigit then
      some (digitVal c1 * 1000 + digitVal c2 * 100 + digitVal c3 * 10 + digitVal c4)
    else none
  | _ => none

/-- `_extract_year` (script.py lines 178-180): first match wins. -/
def extract_year : List Char → Option Nat
  | [] => none
  | c :: rest =>
    match yearAt (c :: rest) with
    | some y => some y
    | none => extract_year rest

/-- Does the range separator `\s*(–|-|to)\s*` match at this position
(the trailing `\s*` is vacuous)? -/
def sepStart : List Char → Bool
  | '–' :: _ => true
  | '-' :: _ => true
  | 't' :: 'o' :: _ => true
  | _ => false

def segSepAt (l : List Char) : Bool := sepStart (l.dropWhile pyWs)

def first_date_segment_go : List Char → List Char
  | [] => []
  | c :: rest => if segSepAt (c :: rest) then [] else c :: first_date_segment_go rest

/-- `_first_date_segment` (script.py lines 182-185). -/
def first_date_segment (l : List Char) : List Char := pyStrip (first_date_segment_go l)

/-- `.replace(" ", " ").replace(" ", " ")`. -/
def nbspToSpace (l : List Char) : List Char :=
  l.map fun c => if c = ' ' ∨ c = ' ' then ' ' else c

/-- `re.fullmatch(r"(19|20)\d{2}", t)` (a bare-year cell). -/
def isBareYear (l : List Char) : Bool :=
  match l with
  | [c1, c2, c3, c4] =>
    ((c1 = '1' ∧ c2 = '9') ∨ (c1 = '2' ∧ c2 = '0')) ∧ c3.isDigit ∧ c4.isDigit
  | _ => false

/-- Python truthiness of an optional int (`None` and `0` falsy). -/
def pyTruthyNat : Option Nat → Bool
  | none => false
  | some n => n ≠ 0

/-- `parse_date_with_fallback(date_text, fallback_year)` (script.py lines
187-232), with the `pd.to_datetime` fallback abstracted as the total
oracle `pandasParse` applied to the candidate list. -/
def parse_date_with_fallback (pandasParse : List (List Char) → Option PyDate)
    (date_text : List Char) (fallback_year : Option Nat) : Option PyDate :=
  let t := nbspToSpace (pyStrip (removeBrackets date_text))
  if t.isEmpty ∨ t.map pyLower = strL "nan" then none
  else if isBareYear t then none
  else
    let yy : Option Nat :=
      match extract_year t with
      | some y => some y
      | none => fallback_year
    let left := nbspToSpace (first_date_segment t)
    let candidates :=
      [left, t] ++
      (if pyTruthyNat yy ∧ extract_year left = none ∧ extract_year t = none then
        [left ++ ' ' :: strL (toString (yy.getD 0))]
      else [])
    match tryCandidates yy candidates with
    | some dt => some dt
    | none => pandasParse candidates

/-! ## Not-found log output (script.py lines 497-498 and 608-613, 636-641)

`not_found_pairs` is a set of `(original_song, original_artist)` pairs;
the summary written at the end of the run is
`sorted(not_found_pairs, key=lambda x: (x[1].lower(), x[0].lower()))`.
The set is modelled by deduplication and `sorted` by insertion sort under
the key order. -/

def lowerStr (s : String) : String := ⟨s.data.map pyLower⟩

/-- The sort key order: lowercased artist, then lowercased song. -/
def notFoundLE (p q : String × String) : Prop :=
  lowerStr p.2 < lowerStr q.2 ∨ (lowerStr p.2 = lowerStr q.2 ∧ lowerStr p.1 ≤ lowerStr q.1)

instance : DecidableRel notFoundLE := fun p q => by
  unfold notFoundLE; infer_instance

/-- The summary list written to `not_found.json`. -/
def notFoundSummary (pairs : List (String × String)) : List (String × String) :=
  List.insertionSort notFoundLE pairs.dedup

instance : IsTotal (String × String) notFoundLE :=
  ⟨fun p q => by
    unfold notFoundLE
    rcases lt_trichotomy (lowerStr p.2) (lowerStr q.2) with h | h | h
    · exact Or.inl (Or.inl h)
    · rcases le_total (lowerStr p.1) (lowerStr q.1) with h2 | h2
      · exact Or.inl (Or.inr ⟨h, h2⟩)
      · exact Or.inr (Or.inr ⟨h.symm, h2⟩)
    · exact Or.inr (Or.inl h)⟩

instance : IsTrans (String × String) notFoundLE :=
  ⟨fun a b c hab hbc => by
    unfold notFoundLE at hab hbc ⊢
    rcases hab with h1 | ⟨e1, l1⟩ <;> rcases hbc with h2 | ⟨e2, l2⟩
    · exact Or.inl (h1.trans h2)
    · exact Or.inl (e2 ▸ h1)
    · exact Or.inl (e1 ▸ h2)
    · exact Or.inr ⟨e1.trans e2, l1.trans l2⟩⟩

/-! ## Auxiliary predicates for the append/idempotence analysis

`parenOk` records the condition under which the bracket scanner of
`clean_song_title` behaves compositionally when text containing a `)` is
appended: every `(` the scan actually visits either finds its `)` or
fails because of a newline (rather than because the string ended).  The
token predicates (`toksOk`, `wsImmune`, `extSafeChar`) isolate the
features of the tag/year patterns that the append lemmas rely on. -/

/-- Every scanner-visited `(` is either closed or blocked by a newline
(so that appending `)`-containing text cannot create a new match). -/
def parenOk : List Char → Bool
  | [] => true
  | c :: rest =>
    if c = '[' then
      match findCloseIdx ']' rest with
      | some i => parenOk (rest.drop (i + 1))
      | none => parenOk rest
    else if c = '(' then
      match findCloseIdx ')' rest with
      | some i => parenOk (rest.drop (i + 1))
      | none => rest.contains '\n' && parenOk rest
    else parenOk rest
termination_by l => l.length
decreasing_by all_goals (simp only [List.length_drop, List.length_cons]; omega)

/-- A junction character after which no tag/year pattern token can
continue a partial match: not a word character and not one of the
apostrophes of the year pattern. -/
def extSafeChar (c : Char) : Bool := !(isWordChar c ∨ c = '\'' ∨ c = '’')

/-- Wellformedness of a single token as used by the tag/year patterns. -/
def tokOk : Tok → Bool
  | Tok.lit s => !s.isEmpty && s.all isWordChar
  | Tok.litOpt s => !s.isEmpty && s.all isWordChar
  | Tok.digits n => decide (0 < n)
  | Tok.anyOf cs => cs.all (fun c => c = '\'' ∨ c = '’')
  | _ => true

/-- Does the token list start with a mandatory-consumption token? -/
def consumeHead : List Tok → Bool
  | Tok.lit _ :: _ => true
  | Tok.digits _ :: _ => true
  | Tok.anyOf _ :: _ => true
  | _ => false

/-- Every whitespace token is followed by a mandatory-consumption token. -/
def wsNext : List Tok → Bool
  | [] => true
  | Tok.ws1 :: ts => consumeHead ts && wsNext ts
  | Tok.ws0 :: ts => consumeHead ts && wsNext ts
  | _ :: ts => wsNext ts

def toksOk (ts : List Tok) : Bool := ts.all tokOk && wsNext ts

/-- Shapes of patterns that can never match inside pure whitespace. -/
def wsImmune : List Tok → Bool
  | Tok.wb :: Tok.lit s :: _ => !s.isEmpty && s.all isWordChar
  | Tok.wb :: Tok.digits n :: _ => decide (0 < n)
  | Tok.ws0 :: Tok.anyOf _ :: _ => true
  | _ => false

/-- The only feature of the pre-scan character that the matcher's
failure behaviour depends on: its word-character status. -/
def prevW : Option Char → Bool
  | some c => isWordChar c
  | none => false

/-- Decidable check that no alternative matches at any position of `l`,
for either word-character class of the pre-scan character. -/
def noMatchTwo (alts : List (List Tok)) : List Char → Bool
  | [] => true
  | c :: rest => (matchAlts alts (some 'a') (c :: rest)).isNone
      && (matchAlts alts none (c :: rest)).isNone && noMatchTwo alts rest

/-! # Theorems -/

/-- C3: if the rebuild/reorder operation resolves zero track ids from the
harvested chart-entry sequence, it issues no playlist-replace and no
playlist-append call, leaving the live playlist untouched. -/
theorem c3_zero_resolution_no_playlist_calls
    (oracle : ChartEntry → Option String) (cache0 : List (String × String))
    (entries : List ChartEntry) (debug : Bool)
    (h : (runReorder oracle cache0 entries).track_ids_sorted = []) :
    reorderCalls debug (runReorder oracle cache0 entries).track_ids_sorted = [] := by
  rw [h]
  unfold reorderCalls
  simp

theorem c3_zero_resolution_no_playlist_calls_witness :
    (runReorder (fun _ => none) [] []).track_ids_sorted = [] ∧
    reorderCalls false (runReorder (fun _ => none) [] []).track_ids_sorted = [] :=
  ⟨rfl, c3_zero_resolution_no_playlist_calls (fun _ => none) [] [] false rfl⟩

/-- C4 counterexample: a key present in the cache but bound to the empty
string is falsy in Python, so the code still performs a catalog search
(one call, not zero), refuting the claim for cache *presence* alone. -/
theorem c4_counterexample_cached_empty_string_still_searches :
    List.lookup "k" [("k", "")] = some "" ∧
    (resolve_track_id [("k", "")] "k" (some "t1")).2.2 = 1 := by
  constructor
  · rfl
  · rfl

/-- C4 (amended): when the entry's canonical key is bound in the cache to
a non-empty track id, resolution performs zero catalog search calls and
returns the cached id — at both call sites: `resolve_track_id` models
`add_song_to_playlist` (lines 507-517), and the reorder step's outcome is
independent of the search oracle (lines 554-562). -/
theorem c4_cached_hit_no_search
    (cache : List (String × String)) (key : String) (sr : Option String)
    (v : String) (hv : List.lookup key cache = some v) (hne : v ≠ "") :
    resolve_track_id cache key sr = (some v, cache, 0) ∧
    (∀ (o1 o2 : ChartEntry → Option String) (st : ReorderState) (e : ChartEntry),
      st.track_cache = cache → pairKey e.song e.artist = key →
      reorderStep o1 st e = reorderStep o2 st e) := by
  have hvt : pyTruthy (some v) = true := by
    unfold pyTruthy
    cases hE : v.isEmpty
    · simp [hE]
    · exact absurd ((String.isEmpty_iff v).mp hE) hne
  constructor
  · simp [resolve_track_id, hv, hvt]
  · intro o1 o2 st e hc hk
    unfold reorderStep
    by_cases hmem : pairKey e.song e.artist ∈ st.unique_pairs
    · simp [hmem]
    · have hlook : List.lookup (pairKey e.song e.artist)
          ({ st with unique_pairs := pairKey e.song e.artist :: st.unique_pairs} :
            ReorderState).track_cache = some v := by
        simpa [hc, hk] using hv
      simp [hmem, reorderResolve, hlook, hvt]

theorem c4_cached_hit_no_search_witness :
    List.lookup "k" [("k", "t9")] = some "t9" ∧ ("t9" : String) ≠ "" ∧
    resolve_track_id [("k", "t9")] "k" none = (some "t9", [("k", "t9")], 0) :=
  ⟨rfl, by decide, (c4_cached_hit_no_search [("k", "t9")] "k" none "t9" rfl (by decide)).1⟩

/-- The resolution part of the loop body touches only the cache and the
not-found set. -/
theorem reorderResolve_fields (oracle : ChartEntry → Option String) (st1 : ReorderState)
    (e : ChartEntry) (pk : String) :
    (reorderResolve oracle st1 e pk).2.unique_pairs = st1.unique_pairs ∧
    (reorderResolve oracle st1 e pk).2.seen_track_ids = st1.seen_track_ids ∧
    (reorderResolve oracle st1 e pk).2.track_ids_sorted = st1.track_ids_sorted := by
  unfold reorderResolve
  dsimp only
  split
  · exact ⟨rfl, rfl, rfl⟩
  · split
    · exact ⟨rfl, rfl, rfl⟩
    · exact ⟨rfl, rfl, rfl⟩

/-- The emit part never changes `unique_pairs`. -/
theorem reorderEmit_unique_pairs (tid : Option String) (st2 : ReorderState) :
    (reorderEmit tid st2).unique_pairs = st2.unique_pairs := by
  unfold reorderEmit
  split
  · split
    · rfl
    · rfl
  · rfl

/-- The emit step preserves duplicate-freedom of the queued ids together
with their membership in `seen_track_ids`. -/
theorem reorderEmit_nodup (tid : Option String) (st2 : ReorderState)
    (h1 : st2.track_ids_sorted.Nodup)
    (h2 : ∀ x ∈ st2.track_ids_sorted, x ∈ st2.seen_track_ids) :
    (reorderEmit tid st2).track_ids_sorted.Nodup ∧
    (∀ x ∈ (reorderEmit tid st2).track_ids_sorted, x ∈ (reorderEmit tid st2).seen_track_ids) := by
  unfold reorderEmit
  split
  · split
    · exact ⟨h1, h2⟩
    · next hnew =>
      constructor
      · refine List.Nodup.append h1 (List.nodup_singleton _) ?_
        intro a ha hmem
        rw [List.mem_singleton] at hmem
        exact hnew (hmem ▸ h2 a ha)
      · intro x hx
        rcases List.mem_append.mp hx with hx | hx
        · exact List.mem_cons_of_mem _ (h2 x hx)
        · rw [List.mem_singleton] at hx
          exact hx ▸ List.mem_cons_self _ _
  · exact ⟨h1, h2⟩

/-- An entry whose canonical key was already processed leaves the state
unchanged. -/
theorem reorderStep_of_mem (oracle : ChartEntry → Option String) (st : ReorderState)
    (e : ChartEntry) (h : pairKey e.song e.artist ∈ st.unique_pairs) :
    reorderStep oracle st e = st := by
  unfold reorderStep
  simp [h]

/-- Unfolding of the processing branch of the loop body. -/
theorem reorderStep_of_not_mem (oracle : ChartEntry → Option String) (st : ReorderState)
    (e : ChartEntry) (h : pairKey e.song e.artist ∉ st.unique_pairs) :
    reorderStep oracle st e =
      reorderEmit
        (reorderResolve oracle
          { st with unique_pairs := pairKey e.song e.artist :: st.unique_pairs } e
          (pairKey e.song e.artist)).1
        (reorderResolve oracle
          { st with unique_pairs := pairKey e.song e.artist :: st.unique_pairs } e
          (pairKey e.song e.artist)).2 := by
  unfold reorderStep
  simp [h]

/-- An entry with a fresh canonical key adds exactly that key to
`unique_pairs`. -/
theorem reorderStep_unique_pairs (oracle : ChartEntry → Option String) (st : ReorderState)
    (e : ChartEntry) (h : pairKey e.song e.artist ∉ st.unique_pairs) :
    (reorderStep oracle st e).unique_pairs = pairKey e.song e.artist :: st.unique_pairs := by
  rw [reorderStep_of_not_mem oracle st e h, reorderEmit_unique_pairs]
  exact (reorderResolve_fields oracle _ e _).1

/-- One loop iteration preserves the queued-ids invariant. -/
theorem reorderStep_nodup (oracle : ChartEntry → Option String) (st : ReorderState)
    (e : ChartEntry) (h1 : st.track_ids_sorted.Nodup)
    (h2 : ∀ x ∈ st.track_ids_sorted, x ∈ st.seen_track_ids) :
    (reorderStep oracle st e).track_ids_sorted.Nodup ∧
    (∀ x ∈ (reorderStep oracle st e).track_ids_sorted,
      x ∈ (reorderStep oracle st e).seen_track_ids) := by
  by_cases h : pairKey e.song e.artist ∈ st.unique_pairs
  · rw [reorderStep_of_mem oracle st e h]
    exact ⟨h1, h2⟩
  · rw [reorderStep_of_not_mem oracle st e h]
    have hr := reorderResolve_fields oracle
      { st with unique_pairs := pairKey e.song e.artist :: st.unique_pairs } e
      (pairKey e.song e.artist)
    apply reorderEmit_nodup
    · rw [hr.2.2]; exact h1
    · rw [hr.2.2, hr.2.1]; exact h2

theorem runReorder_aux_nodup (oracle : ChartEntry → Option String) :
    ∀ (entries : List ChartEntry) (st : ReorderState),
      st.track_ids_sorted.Nodup → (∀ x ∈ st.track_ids_sorted, x ∈ st.seen_track_ids) →
      (entries.foldl (reorderStep oracle) st).track_ids_sorted.Nodup := by
  intro entries
  induction entries with
  | nil => intro st h1 _; exact h1
  | cons e rest ih =>
    intro st h1 h2
    rw [List.foldl_cons]
    have hstep := reorderStep_nodup oracle st e h1 h2
    exact ih _ hstep.1 hstep.2

theorem runReorder_aux_dedup (oracle : ChartEntry → Option String) :
    ∀ (entries : List ChartEntry) (st : ReorderState),
      entries.foldl (reorderStep oracle) st =
        (dedupFirstByKey st.unique_pairs entries).foldl (reorderStep oracle) st := by
  intro entries
  induction entries with
  | nil => intro st; rfl
  | cons e rest ih =>
    intro st
    by_cases h : pairKey e.song e.artist ∈ st.unique_pairs
    · rw [List.foldl_cons, reorderStep_of_mem oracle st e h]
      unfold dedupFirstByKey
      simp only [h, if_true]
      exact ih st
    · rw [List.foldl_cons]
      unfold dedupFirstByKey
      simp only [h, if_false, List.foldl_cons]
      have hu := reorderStep_unique_pairs oracle st e h
      have := ih (reorderStep oracle st e)
      rw [hu] at this
      exact this

/-- C6: the rebuild/reorder resolution pass deduplicates by CanonicalKey
keeping only the first occurrence per key (processing the entry sequence
is indistinguishable from processing its first-occurrence-per-key
subsequence), and additionally deduplicates at the resolved-track-id
level: the resulting ordered id list never contains a duplicate id. -/
theorem c6_reorder_dedup_and_unique_ids (oracle : ChartEntry → Option String)
    (cache0 : List (String × String)) (entries : List ChartEntry) :
    (runReorder oracle cache0 entries).track_ids_sorted.Nodup ∧
    runReorder oracle cache0 entries =
      runReorder oracle cache0 (dedupFirstByKey [] entries) := by
  constructor
  · exact runReorder_aux_nodup oracle entries (reorderInit cache0)
      List.nodup_nil (by intro x hx; cases hx)
  · exact runReorder_aux_dedup oracle entries (reorderInit cache0)

theorem runQueries_cons (oracle : String → List SpotifyTrack) (score : SpotifyTrack → Nat)
    (qn qd : String) (rest : List (String × String)) (st : SearchState) :
    runQueries oracle score ((qn, qd) :: rest) st =
      (if ((oracle qn).foldl (stepCandidate score) st).best.isSome ∧
          ((oracle qn).foldl (stepCandidate score) st).bestScore ≥ 5 then
        ((oracle qn).foldl (stepCandidate score) st).best
      else runQueries oracle score rest ((oracle qn).foldl (stepCandidate score) st)) := rfl

theorem runTriggers_cons (oracle : String → List SpotifyTrack) (score : SpotifyTrack → Nat)
    (qn qd : String) (rest : List (String × String)) (st : SearchState) :
    runTriggers oracle score ((qn, qd) :: rest) st =
      (if ((oracle qn).foldl (stepCandidate score) st).best.isSome ∧
          ((oracle qn).foldl (stepCandidate score) st).bestScore ≥ 5 then true
      else runTriggers oracle score rest ((oracle qn).foldl (stepCandidate score) st)) := rfl

/-- Once the short-circuit has fired within a prefix of the cascade, the
remaining queries are irrelevant to the result. -/
theorem runQueries_append_of_triggers (oracle : String → List SpotifyTrack)
    (score : SpotifyTrack → Nat) :
    ∀ (qs1 : List (String × String)) (st : SearchState),
      runTriggers oracle score qs1 st = true →
      ∀ qs2, runQueries oracle score (qs1 ++ qs2) st = runQueries oracle score qs1 st := by
  intro qs1
  induction qs1 with
  | nil => intro st h; simp [runTriggers] at h
  | cons q rest ih =>
    intro st h qs2
    obtain ⟨qn, qd⟩ := q
    rw [List.cons_append, runQueries_cons, runQueries_cons]
    by_cases hc : ((oracle qn).foldl (stepCandidate score) st).best.isSome ∧
        ((oracle qn).foldl (stepCandidate score) st).bestScore ≥ 5
    · simp [hc]
    · rw [runTriggers_cons] at h
      simp only [hc, if_false] at h ⊢
      exact ih _ h qs2

/-- A cascade whose queries all return no candidates leaves the running
state untouched and returns its `best` field. -/
theorem runQueries_of_no_items (oracle : String → List SpotifyTrack)
    (score : SpotifyTrack → Nat) :
    ∀ (qs : List (String × String)) (st : SearchState),
      allItems oracle qs = [] → runQueries oracle score qs st = st.best := by
  intro qs
  induction qs with
  | nil => intro st _; rfl
  | cons q rest ih =>
    intro st h
    obtain ⟨qn, qd⟩ := q
    simp only [allItems, List.map_cons, List.flatten_cons, List.append_eq_nil] at h
    rw [runQueries_cons, h.1]
    simp only [List.foldl_nil]
    by_cases hc : st.best.isSome ∧ st.bestScore ≥ 5
    · simp [hc]
    · simp only [hc, if_false]
      exact ih st (by simpa [allItems] using h.2)

/-- Without a short-circuit, the whole cascade behaves as a single fold of
the candidate stream through the best-candidate update. -/
theorem runQueries_eq_fold (oracle : String → List SpotifyTrack) (score : SpotifyTrack → Nat) :
    ∀ (qs : List (String × String)) (st : SearchState),
      runTriggers oracle score qs st = false →
      runQueries oracle score qs st =
        ((allItems oracle qs).foldl (stepCandidate score) st).best := by
  intro qs
  induction qs with
  | nil => intro st _; simp [runQueries, allItems]
  | cons q rest ih =>
    intro st h
    obtain ⟨qn, qd⟩ := q
    rw [runTriggers_cons] at h
    by_cases hc : ((oracle qn).foldl (stepCandidate score) st).best.isSome ∧
        ((oracle qn).foldl (stepCandidate score) st).bestScore ≥ 5
    · simp [hc] at h
    · rw [runQueries_cons]
      simp only [hc, if_false] at h ⊢
      rw [ih _ h]
      simp [allItems, List.foldl_append]

theorem foldl_step_bestScore_le (score : SpotifyTrack → Nat) :
    ∀ (l : List SpotifyTrack) (st : SearchState),
      st.bestScore ≤ (l.foldl (stepCandidate score) st).bestScore := by
  intro l
  induction l with
  | nil => intro st; exact le_refl _
  | cons tr rest ih =>
    intro st
    rw [List.foldl_cons]
    refine le_trans ?_ (ih (stepCandidate score st tr))
    unfold stepCandidate
    split
    · next hgt => exact le_of_lt hgt
    · exact le_refl _

/-- The candidate fold tracks the first candidate attaining the maximal
score (or leaves the state untouched when nothing beats it). -/
theorem foldl_step_argmax (score : SpotifyTrack → Nat) :
    ∀ (l : List SpotifyTrack) (st : SearchState),
      (l.foldl (stepCandidate score) st = st ∧
        ∀ tr ∈ l, (score tr : Int) ≤ st.bestScore) ∨
      (∃ tr ∈ l, (l.foldl (stepCandidate score) st).best = some tr.id ∧
        (l.foldl (stepCandidate score) st).bestScore = (score tr : Int) ∧
        ∀ tr2 ∈ l, (score tr2 : Int) ≤ (l.foldl (stepCandidate score) st).bestScore) := by
  intro l
  induction l with
  | nil => intro st; left; exact ⟨rfl, by simp⟩
  | cons tr rest ih =>
    intro st
    rw [List.foldl_cons]
    by_cases himp : (score tr : Int) > st.bestScore
    · have hstep : stepCandidate score st tr = ⟨some tr.id, (score tr : Int)⟩ := by
        unfold stepCandidate; simp [himp]
      rw [hstep]
      rcases ih ⟨some tr.id, (score tr : Int)⟩ with ⟨heq, hall⟩ | ⟨tr2, hmem, hbest, hsc, hall⟩
      · right
        refine ⟨tr, List.mem_cons_self _ _, ?_, ?_, ?_⟩
        · rw [heq]
        · rw [heq]
        · intro tr2 htr2
          rw [heq]
          rcases List.mem_cons.mp htr2 with h2 | h2
          · rw [h2]
          · exact hall tr2 h2
      · right
        refine ⟨tr2, List.mem_cons_of_mem _ hmem, hbest, hsc, ?_⟩
        intro tr3 htr3
        rcases List.mem_cons.mp htr3 with h2 | h2
        · rw [h2]
          exact foldl_step_bestScore_le score rest ⟨some tr.id, (score tr : Int)⟩
        · exact hall tr3 h2
    · have hstep : stepCandidate score st tr = st := by
        unfold stepCandidate; simp [himp]
      rw [hstep]
      rcases ih st with ⟨heq, hall⟩ | ⟨tr2, hmem, hbest, hsc, hall⟩
      · left
        refine ⟨heq, ?_⟩
        intro tr2 htr2
        rcases List.mem_cons.mp htr2 with h2 | h2
        · rw [h2]; exact le_of_not_lt himp
        · exact hall tr2 h2
      · right
        refine ⟨tr2, List.mem_cons_of_mem _ hmem, hbest, hsc, ?_⟩
        intro tr3 htr3
        rcases List.mem_cons.mp htr3 with h2 | h2
        · rw [h2]
          exact le_trans (le_of_not_lt himp) (foldl_step_bestScore_le score rest st)
        · exact hall tr3 h2

/-- C7: the resolver short-circuits once a query of the cascade yields a
running best of score at least 5 — the remaining queries cannot change the
result — and otherwise, after exhausting the cascade, returns a
highest-scoring candidate if any candidate was seen, else none.
(`search_spotify_track` is `runQueries` applied to the concrete scoring
function and query cascade.) -/
theorem c7_resolver_short_circuit_and_best_fallback :
    (∀ (oracle : String → List SpotifyTrack) (score : SpotifyTrack → Nat)
        (qs1 qs2 : List (String × String)) (st : SearchState),
      runTriggers oracle score qs1 st = true →
      runQueries oracle score (qs1 ++ qs2) st = runQueries oracle score qs1 st) ∧
    (∀ (oracle : String → List SpotifyTrack) (score : SpotifyTrack → Nat)
        (qs : List (String × String)),
      allItems oracle qs = [] → runQueries oracle score qs ⟨none, -1⟩ = none) ∧
    (∀ (oracle : String → List SpotifyTrack) (score : SpotifyTrack → Nat)
        (qs : List (String × String)),
      runTriggers oracle score qs ⟨none, -1⟩ = false → allItems oracle qs ≠ [] →
      ∃ tr ∈ allItems oracle qs,
        runQueries oracle score qs ⟨none, -1⟩ = some tr.id ∧
        ∀ tr2 ∈ allItems oracle qs, score tr2 ≤ score tr) := by
  refine ⟨fun o s qs1 qs2 st h => runQueries_append_of_triggers o s qs1 st h qs2, ?_, ?_⟩
  · intro o s qs h
    rw [runQueries_of_no_items o s qs _ h]
  · intro o s qs htrig hne
    rw [runQueries_eq_fold o s qs _ htrig]
    rcases foldl_step_argmax s (allItems o qs) ⟨none, -1⟩ with
      ⟨heq, hall⟩ | ⟨tr, hmem, hbest, hsc, hall⟩
    · obtain ⟨tr, hmem⟩ : ∃ tr, tr ∈ allItems o qs := by
        cases hit : allItems o qs with
        | nil => exact absurd hit hne
        | cons a l => exact ⟨a, hit ▸ List.mem_cons_self a l⟩
      have hle : (s tr : Int) ≤ -1 := hall tr hmem
      have hge : (0 : Int) ≤ (s tr : Int) := Int.natCast_nonneg _
      omega
    · refine ⟨tr, hmem, hbest, ?_⟩
      intro tr2 h2
      have := hall tr2 h2
      rw [hsc] at this
      exact_mod_cast this

theorem c7_resolver_short_circuit_and_best_fallback_witness :
    (runQueries (fun _ => [⟨"id1", "t", [], "", none⟩]) (fun _ => 9)
        ([("q", "d")] ++ [("q2", "d2")]) ⟨none, -1⟩ =
      runQueries (fun _ => [⟨"id1", "t", [], "", none⟩]) (fun _ => 9) [("q", "d")] ⟨none, -1⟩) ∧
    (runQueries (fun _ => []) (fun _ => 9) [("q", "d")] ⟨none, -1⟩ = none) ∧
    (∃ tr ∈ allItems (fun _ => [⟨"id1", "t", [], "", none⟩]) [("q", "d")],
      runQueries (fun _ => [⟨"id1", "t", [], "", none⟩]) (fun _ => 1) [("q", "d")]
          ⟨none, -1⟩ = some tr.id ∧
      ∀ tr2 ∈ allItems (fun _ => [⟨"id1", "t", [], "", none⟩]) [("q", "d")],
        (fun _ => 1 : SpotifyTrack → Nat) tr2 ≤ (fun _ => 1 : SpotifyTrack → Nat) tr) :=
  ⟨c7_resolver_short_circuit_and_best_fallback.1 _ _ [("q", "d")] [("q2", "d2")] _ (by decide),
   c7_resolver_short_circuit_and_best_fallback.2.1 _ _ [("q", "d")] rfl,
   c7_resolver_short_circuit_and_best_fallback.2.2 _ _ [("q", "d")] (by decide) (by decide)⟩

/-- C8 counterexample: with a chart year present, the cascade's last query
is the year-less title+original-artist query, not a pure keyword query
(which sits third from the end). -/
theorem c8_counterexample_last_query_not_pure_keyword :
    (searchQueries "s" "a" "o" (some 2000)).getLast? =
      some ("track:\"s\" artist:\"o\"", "orig-artist") ∧
    (searchQueries "s" "a" "o" (some 2000)).getLast? ≠ some ("s a", "keywords") := by
  have hcs : clean_song_title "s" = "s" := by
    simp [clean_song_title, clean_song_title_l, pyStrip, trimBy, ltrimBy, rtrimBy,
      removeBrackets, findCloseIdx, pyWs]
  have hca : clean_artist_name "a" = "a" := by
    simp [clean_artist_name, clean_artist_name_l, truncAtSep, sepHere, sepWordAt, sepWords,
      stripLitCI, pyLower, pyStrip, trimBy, ltrimBy, rtrimBy, pyWs, strL]
  unfold searchQueries
  rw [hcs, hca]
  constructor
  · rfl
  · decide

/-- C8 (amended): on a cache miss with a (truthy) chart year, the resolver
issues exactly this cascade, in order: exact title+cleaned-artist scoped to
the year, title+original-artist scoped to the year, title-only scoped to
the year, keyword scoped to the year, then the two queries widened to a
two-year range, then without year scoping: exact title+cleaned-artist,
title-only, keyword, and finally title+original-artist as the last query
(the pure keyword query is third from the end, not last). -/
theorem c8_query_cascade_order (song artist original_artist : String) (yr : Nat)
    (hyr : yr ≠ 0) :
    searchQueries song artist original_artist (some yr) =
      [ ("track:\"" ++ clean_song_title song ++ "\" artist:\"" ++ clean_artist_name artist ++
           "\" year:" ++ toString yr, "exact+year"),
        ("track:\"" ++ clean_song_title song ++ "\" artist:\"" ++ original_artist ++
           "\" year:" ++ toString yr, "orig-artist+year"),
        ("track:\"" ++ clean_song_title song ++ "\" year:" ++ toString yr, "song+year"),
        (clean_song_title song ++ " " ++ clean_artist_name artist ++ " year:" ++ toString yr,
           "kw+year"),
        ("track:\"" ++ clean_song_title song ++ "\" artist:\"" ++ clean_artist_name artist ++
           "\" year:" ++ toString yr ++ "-" ++ toString (yr + 1), "exact+year-range"),
        ("track:\"" ++ clean_song_title song ++ "\" artist:\"" ++ original_artist ++
           "\" year:" ++ toString yr ++ "-" ++ toString (yr + 1), "orig-artist+year-range"),
        ("track:\"" ++ clean_song_title song ++ "\" artist:\"" ++ clean_artist_name artist ++
           "\"", "exact"),
        ("track:\"" ++ clean_song_title song ++ "\"", "song only"),
        (clean_song_title song ++ " " ++ clean_artist_name artist, "keywords"),
        ("track:\"" ++ clean_song_title song ++ "\" artist:\"" ++ original_artist ++ "\"",
           "orig-artist") ] := by
  unfold searchQueries
  simp [hyr]

theorem c8_query_cascade_order_witness :
    (2000 : Nat) ≠ 0 ∧
    searchQueries "s" "a" "o" (some 2000) =
      [ ("track:\"" ++ clean_song_title "s" ++ "\" artist:\"" ++ clean_artist_name "a" ++
           "\" year:" ++ toString (2000 : Nat), "exact+year"),
        ("track:\"" ++ clean_song_title "s" ++ "\" artist:\"" ++ "o" ++
           "\" year:" ++ toString (2000 : Nat), "orig-artist+year"),
        ("track:\"" ++ clean_song_title "s" ++ "\" year:" ++ toString (2000 : Nat), "song+year"),
        (clean_song_title "s" ++ " " ++ clean_artist_name "a" ++ " year:" ++
           toString (2000 : Nat), "kw+year"),
        ("track:\"" ++ clean_song_title "s" ++ "\" artist:\"" ++ clean_artist_name "a" ++
           "\" year:" ++ toString (2000 : Nat) ++ "-" ++ toString (2000 + 1 : Nat),
           "exact+year-range"),
        ("track:\"" ++ clean_song_title "s" ++ "\" artist:\"" ++ "o" ++
           "\" year:" ++ toString (2000 : Nat) ++ "-" ++ toString (2000 + 1 : Nat),
           "orig-artist+year-range"),
        ("track:\"" ++ clean_song_title "s" ++ "\" artist:\"" ++ clean_artist_name "a" ++
           "\"", "exact"),
        ("track:\"" ++ clean_song_title "s" ++ "\"", "song only"),
        (clean_song_title "s" ++ " " ++ clean_artist_name "a", "keywords"),
        ("track:\"" ++ clean_song_title "s" ++ "\" artist:\"" ++ "o" ++ "\"",
           "orig-artist") ] :=
  ⟨by decide, c8_query_cascade_order "s" "a" "o" 2000 (by decide)⟩

/-- C1 counterexample: a candidate scoring 5 purely from artist-name
overlap (its title key differs from the entry's, there is no chart year,
and its popularity bonus is 0), exceeding the claimed +4 total cap for the
artist-overlap contribution. -/
theorem c1_counterexample_artist_overlap_exceeds_four :
    scoreCandidate (base_song_key "q") (base_artist_set "A&B") (base_artist_set "A&B") none
      ⟨"x", "zzz", ["A&B"], "", none⟩ = 5 ∧
    base_song_key "zzz" ≠ base_song_key "q" ∧
    (⟨"x", "zzz", ["A&B"], "", none⟩ : SpotifyTrack).popularity.getD 0 / 30 = 0 := by
  have hq : base_song_key "q" = "q" := by
    simp [base_song_key, base_song_key_l, tagStripped, applyTags, tagToksList, yearToks,
      clean_song_title_l, pyStrip, trimBy, ltrimBy, rtrimBy, removeBrackets, findCloseIdx,
      pyWs, pyLower, reSub, matchAlts, matchToks, stripLit, lastOr, boundary, isWordChar,
      stripTrailingHyphen, collapseWsGo, strL]
  have hz : base_song_key "zzz" = "zzz" := by
    simp [base_song_key, base_song_key_l, tagStripped, applyTags, tagToksList, yearToks,
      clean_song_title_l, pyStrip, trimBy, ltrimBy, rtrimBy, removeBrackets, findCloseIdx,
      pyWs, pyLower, reSub, matchAlts, matchToks, stripLit, lastOr, boundary, isWordChar,
      stripTrailingHyphen, collapseWsGo, strL]
  have hkey : base_artist_key "A&B" = "a & b" := by
    simp [base_artist_key, base_artist_key_l, clean_artist_name_l, truncAtSep, sepHere,
      sepWordAt, sepWords, stripLitCI, pyLower, pyStrip, trimBy, ltrimBy, rtrimBy, pyWs,
      reSub, matchAlts, matchToks, artistSepAlts, stripLit, lastOr, strL,
      List.splitOn, List.splitOnP, List.splitOnP.go, List.intercalate]
  have hset : base_artist_set "A&B" = {"a", "b"} := by
    have : base_artist_set_l (strL "A&B") =
        ((((strL "a & b").splitOn '&').map (fun p => (⟨pyStrip p⟩ : String))).filter
          (fun s => s ≠ "")).toFinset := by
      unfold base_artist_set_l
      have hk : base_artist_key_l (strL "A&B") = strL "a & b" := by
        have := congrArg String.data hkey
        simpa [base_artist_key, strL] using this
      rw [hk]
    rw [show base_artist_set "A&B" = base_artist_set_l (strL "A&B") from rfl, this]
    decide
  refine ⟨?_, by rw [hz, hq]; decide, by decide⟩
  unfold scoreCandidate
  rw [hq, hz]
  have hj : artistJoin ["A&B"] = "A&B" := by decide
  rw [hj, hset]
  simp only [relYear]
  norm_num
  decide

/-- C1 (amended): the candidate score decomposes as the sum of a +5 title
term, an artist-overlap term of at most +5 total (+2 per overlap with the
cleaned-artist set counting at most two matches, plus +1 for overlap with
the original-credit set), the +3/+1 release-year term, and a
popularity-proportional term `popularity // 30` which is capped at +3 for
the catalog's popularity range 0..100. -/
theorem c1_score_decomposition (dsk : String) (das dos : Finset String)
    (cy : Option Nat) (tr : SpotifyTrack) (hpop : tr.popularity.getD 0 ≤ 100) :
    scoreCandidate dsk das dos cy tr =
      (if base_song_key tr.name = dsk then 5 else 0) +
      (min ((base_artist_set (artistJoin tr.artists) ∩ das).card) 2 * 2 +
        min ((base_artist_set (artistJoin tr.artists) ∩ dos).card) 1) +
      (match cy, relYear tr.release_date with
       | some c, some r =>
         if c ≠ 0 ∧ r ≠ 0 then
           if r = c then 3 else if ((r : Int) - (c : Int)).natAbs = 1 then 1 else 0
         else 0
       | _, _ => 0) +
      min (tr.popularity.getD 0 / 30) 3 ∧
    min ((base_artist_set (artistJoin tr.artists) ∩ das).card) 2 * 2 +
      min ((base_artist_set (artistJoin tr.artists) ∩ dos).card) 1 ≤ 5 ∧
    tr.popularity.getD 0 / 30 ≤ 3 := by
  have hp3 : tr.popularity.getD 0 / 30 ≤ 3 := by
    have h1 : tr.popularity.getD 0 / 30 ≤ 100 / 30 := Nat.div_le_div_right hpop
    norm_num at h1
    exact h1
  refine ⟨?_, ?_, hp3⟩
  · rw [Nat.min_eq_left hp3]
    rfl
  · have h1 : min ((base_artist_set (artistJoin tr.artists) ∩ das).card) 2 ≤ 2 :=
      Nat.min_le_right _ _
    have h2 : min ((base_artist_set (artistJoin tr.artists) ∩ dos).card) 1 ≤ 1 :=
      Nat.min_le_right _ _
    omega

theorem c1_score_decomposition_witness :
    ((⟨"x", "t", [], "", some 90⟩ : SpotifyTrack).popularity.getD 0 ≤ 100) ∧
    (scoreCandidate "k" ∅ ∅ none ⟨"x", "t", [], "", some 90⟩ =
      (if base_song_key "t" = "k" then 5 else 0) +
      (min ((base_artist_set (artistJoin ([] : List String)) ∩ ∅).card) 2 * 2 +
        min ((base_artist_set (artistJoin ([] : List String)) ∩ ∅).card) 1) +
      (match (none : Option Nat), relYear "" with
       | some c, some r =>
         if c ≠ 0 ∧ r ≠ 0 then
           if r = c then 3 else if ((r : Int) - (c : Int)).natAbs = 1 then 1 else 0
         else 0
       | _, _ => 0) +
      min ((⟨"x", "t", [], "", some 90⟩ : SpotifyTrack).popularity.getD 0 / 30) 3) :=
  ⟨by decide, (c1_score_decomposition "k" ∅ ∅ none ⟨"x", "t", [], "", some 90⟩ (by decide)).1⟩

/-! ### Equation lemmas for the bracket scanner -/

theorem rb_nil : removeBrackets [] = [] := by simp [removeBrackets]

theorem rb_lbracket_some {rest : List Char} {i : Nat} (h : findCloseIdx ']' rest = some i) :
    removeBrackets ('[' :: rest) = removeBrackets (rest.drop (i + 1)) := by
  simp [removeBrackets, h]

theorem rb_lbracket_none {rest : List Char} (h : findCloseIdx ']' rest = none) :
    removeBrackets ('[' :: rest) = '[' :: removeBrackets rest := by
  simp [removeBrackets, h]

theorem rb_lparen_some {rest : List Char} {i : Nat} (h : findCloseIdx ')' rest = some i) :
    removeBrackets ('(' :: rest) = removeBrackets (rest.drop (i + 1)) := by
  simp [removeBrackets, h]

theorem rb_lparen_none {rest : List Char} (h : findCloseIdx ')' rest = none) :
    removeBrackets ('(' :: rest) = '(' :: removeBrackets rest := by
  simp [removeBrackets, h]

theorem rb_other {c : Char} {rest : List Char} (h1 : c ≠ '[') (h2 : c ≠ '(') :
    removeBrackets (c :: rest) = c :: removeBrackets rest := by
  simp [removeBrackets, h1, h2]

theorem removeBrackets_length : ∀ l : List Char, (removeBrackets l).length ≤ l.length := by
  intro l
  induction l using removeBrackets.induct with
  | case1 => simp [rb_nil]
  | case2 rest i hfc ih =>
    rw [rb_lbracket_some hfc]
    refine le_trans ih ?_
    simp only [List.length_drop, List.length_cons]
    omega
  | case3 rest hfc ih =>
    rw [rb_lbracket_none hfc]
    simpa using ih
  | case4 rest i hfc _ ih =>
    rw [rb_lparen_some hfc]
    refine le_trans ih ?_
    simp only [List.length_drop, List.length_cons]
    omega
  | case5 rest hfc _ ih =>
    rw [rb_lparen_none hfc]
    simpa using ih
  | case6 c rest h1 h2 ih =>
    rw [rb_other h1 h2]
    simpa using ih

/-! ### `findCloseIdx` facts -/

theorem fci_lt {cl : Char} : ∀ {l : List Char} {i : Nat},
    findCloseIdx cl l = some i → i < l.length := by
  intro l
  induction l with
  | nil => intro i h; simp [findCloseIdx] at h
  | cons c rest ih =>
    intro i h
    simp only [findCloseIdx] at h
    split at h
    · cases h; simp
    · split at h
      · cases h
      · cases hr : findCloseIdx cl rest with
        | none => rw [hr] at h; cases h
        | some j =>
          rw [hr] at h
          simp only [Option.map_some'] at h
          cases h
          have := ih hr
          simp only [List.length_cons]
          omega

theorem fci_cons_ne {cl c : Char} {rest : List Char} (h1 : c ≠ cl) (h2 : c ≠ '\n') :
    findCloseIdx cl (c :: rest) = (findCloseIdx cl rest).map (· + 1) := by
  simp [findCloseIdx, h1, h2]

theorem fci_none_elim {cl c : Char} {rest : List Char}
    (h : findCloseIdx cl (c :: rest) = none) :
    c ≠ cl ∧ (c = '\n' ∨ findCloseIdx cl rest = none) := by
  by_cases h1 : c = cl
  · rw [h1] at h; simp [findCloseIdx] at h
  · refine ⟨h1, ?_⟩
    by_cases h2 : c = '\n'
    · exact Or.inl h2
    · right
      rw [fci_cons_ne h1 h2] at h
      exact Option.map_eq_none'.mp h

theorem fci_none_of_not_mem {cl : Char} : ∀ {l : List Char}, cl ∉ l →
    findCloseIdx cl l = none := by
  intro l
  induction l with
  | nil => intro _; rfl
  | cons c rest ih =>
    intro h
    have hc : c ≠ cl := fun he => h (he ▸ List.mem_cons_self c rest)
    by_cases h2 : c = '\n'
    · subst h2
      simp only [findCloseIdx]
      rw [if_neg hc]
      simp
    · rw [fci_cons_ne hc h2, ih (fun hm => h (List.mem_cons_of_mem c hm))]
      rfl

theorem fci_append_some {cl : Char} : ∀ {L : List Char} {i : Nat} (ext : List Char),
    findCloseIdx cl L = some i → findCloseIdx cl (L ++ ext) = some i := by
  intro L
  induction L with
  | nil => intro i ext h; simp [findCloseIdx] at h
  | cons c rest ih =>
    intro i ext h
    by_cases h1 : c = cl
    · rw [h1] at h ⊢
      simp [findCloseIdx] at h ⊢
      exact h
    · by_cases h2 : c = '\n'
      · subst h2
        simp only [findCloseIdx] at h
        rw [if_neg h1] at h
        simp at h
      · rw [fci_cons_ne h1 h2] at h
        rw [List.cons_append, fci_cons_ne h1 h2]
        cases hr : findCloseIdx cl rest with
        | none => rw [hr] at h; cases h
        | some j =>
          rw [hr] at h
          rw [ih ext hr]
          exact h

theorem fci_append_none_of_not_mem {cl : Char} : ∀ {L : List Char} (ext : List Char),
    findCloseIdx cl L = none → cl ∉ ext → findCloseIdx cl (L ++ ext) = none := by
  intro L
  induction L with
  | nil => intro ext _ hext; exact fci_none_of_not_mem hext
  | cons c rest ih =>
    intro ext h hext
    obtain ⟨h1, h2⟩ := fci_none_elim h
    rcases h2 with h2 | h2
    · subst h2
      simp only [List.cons_append, findCloseIdx]
      rw [if_neg h1]
      simp
    · rw [List.cons_append]
      by_cases hn : c = '\n'
      · subst hn
        simp only [findCloseIdx]
        rw [if_neg h1]
        simp
      · rw [fci_cons_ne h1 hn, ih ext h2 hext]
        rfl

theorem fci_append_none_of_newline {cl : Char} : ∀ {L : List Char} (ext : List Char),
    findCloseIdx cl L = none → '\n' ∈ L → findCloseIdx cl (L ++ ext) = none := by
  intro L
  induction L with
  | nil => intro ext _ hmem; cases hmem
  | cons c rest ih =>
    intro ext h hmem
    obtain ⟨h1, h2⟩ := fci_none_elim h
    by_cases hn : c = '\n'
    · subst hn
      simp only [List.cons_append, findCloseIdx]
      rw [if_neg h1]
      simp
    · have hmem2 : '\n' ∈ rest := by
        rcases List.mem_cons.mp hmem with hx | hx
        · exact absurd hx.symm hn
        · exact hx
      rcases h2 with h2 | h2
      · exact absurd h2 hn
      · rw [List.cons_append, fci_cons_ne h1 hn, ih ext h2 hmem2]
        rfl

theorem fci_none_of_append {cl : Char} : ∀ {L t : List Char},
    findCloseIdx cl (L ++ t) = none → findCloseIdx cl L = none := by
  intro L
  induction L with
  | nil => intro t _; rfl
  | cons c rest ih =>
    intro t h
    rw [List.cons_append] at h
    obtain ⟨h1, h2⟩ := fci_none_elim h
    by_cases hn : c = '\n'
    · subst hn
      simp only [findCloseIdx]
      rw [if_neg h1]
      simp
    · rcases h2 with h2 | h2
      · exact absurd h2 hn
      · rw [fci_cons_ne h1 hn, ih h2]
        rfl

theorem fci_none_drop {cl cl' : Char} (hcl' : cl' ≠ '\n') : ∀ {l : List Char} {i : Nat},
    findCloseIdx cl l = none → findCloseIdx cl' l = some i →
    findCloseIdx cl (l.drop (i + 1)) = none := by
  intro l
  induction l with
  | nil => intro i _ h'; simp [findCloseIdx] at h'
  | cons c rest ih =>
    intro i h h'
    obtain ⟨h1, h2⟩ := fci_none_elim h
    by_cases hc' : c = cl'
    · simp only [findCloseIdx, if_pos hc'] at h'
      cases h'
      simp only [List.drop_succ_cons, List.drop_zero]
      rcases h2 with h2 | h2
      · exact absurd (hc'.symm.trans h2) hcl'
      · exact h2
    · by_cases hn : c = '\n'
      · subst hn
        simp only [findCloseIdx] at h'
        rw [if_neg hc'] at h'
        simp at h'
      · rw [fci_cons_ne hc' hn] at h'
        cases hr : findCloseIdx cl' rest with
        | none => rw [hr] at h'; cases h'
        | some j =>
          rw [hr] at h'
          simp only [Option.map_some'] at h'
          cases h'
          rcases h2 with h2 | h2
          · exact absurd h2 hn
          · simp only [List.drop_succ_cons]
            exact ih h2 hr

/-- The scanner's output never contains a close target that its input's
scan could not see: a failed close search stays failed on the output. -/
theorem fci_none_rb {cl : Char} : ∀ {l : List Char}, findCloseIdx cl l = none →
    findCloseIdx cl (removeBrackets l) = none := by
  intro l
  induction l using removeBrackets.induct with
  | case1 => intro _; rw [rb_nil]; rfl
  | case2 rest i hfc ih =>
    intro h
    obtain ⟨h1, h2⟩ := fci_none_elim h
    rcases h2 with h2 | h2
    · cases h2
    · rw [rb_lbracket_some hfc]
      exact ih (fci_none_drop (by decide) h2 hfc)
  | case3 rest hfc ih =>
    intro h
    obtain ⟨h1, h2⟩ := fci_none_elim h
    rcases h2 with h2 | h2
    · cases h2
    · rw [rb_lbracket_none hfc, fci_cons_ne h1 (by decide), ih h2]
      rfl
  | case4 rest i hfc _ ih =>
    intro h
    obtain ⟨h1, h2⟩ := fci_none_elim h
    rcases h2 with h2 | h2
    · cases h2
    · rw [rb_lparen_some hfc]
      exact ih (fci_none_drop (by decide) h2 hfc)
  | case5 rest hfc _ ih =>
    intro h
    obtain ⟨h1, h2⟩ := fci_none_elim h
    rcases h2 with h2 | h2
    · cases h2
    · rw [rb_lparen_none hfc, fci_cons_ne h1 (by decide), ih h2]
      rfl
  | case6 c rest hc1 hc2 ih =>
    intro h
    obtain ⟨h1, h2⟩ := fci_none_elim h
    rw [rb_other hc1 hc2]
    by_cases hn : c = '\n'
    · subst hn
      simp only [findCloseIdx]
      rw [if_neg h1]
      simp
    · rcases h2 with h2 | h2
      · exact absurd h2 hn
      · rw [fci_cons_ne h1 hn, ih h2]
        rfl

/-- The bracket scanner is idempotent. -/
theorem rb_idem : ∀ l : List Char, removeBrackets (removeBrackets l) = removeBrackets l := by
  intro l
  induction l using removeBrackets.induct with
  | case1 => rw [rb_nil, rb_nil]
  | case2 rest i hfc ih => rw [rb_lbracket_some hfc]; exact ih
  | case3 rest hfc ih =>
    rw [rb_lbracket_none hfc, rb_lbracket_none (fci_none_rb hfc), ih]
  | case4 rest i hfc _ ih => rw [rb_lparen_some hfc]; exact ih
  | case5 rest hfc _ ih =>
    rw [rb_lparen_none hfc, rb_lparen_none (fci_none_rb hfc), ih]
  | case6 c rest hc1 hc2 ih =>
    rw [rb_other hc1 hc2, rb_other hc1 hc2, ih]

/-- If a list followed by arbitrary text is a scanner fixpoint, so is the
list itself. -/
theorem rb_fix_append_left : ∀ (l t : List Char),
    removeBrackets (l ++ t) = l ++ t → removeBrackets l = l := by
  intro l
  induction l with
  | nil => intro t _; rw [rb_nil]
  | cons c rest ih =>
    intro t h
    rw [List.cons_append] at h
    by_cases hc1 : c = '['
    · subst hc1
      cases hfc : findCloseIdx ']' (rest ++ t) with
      | some i =>
        exfalso
        rw [rb_lbracket_some hfc] at h
        have hlen := congrArg List.length h
        have hle := removeBrackets_length ((rest ++ t).drop (i + 1))
        simp only [List.length_drop, List.length_cons, List.length_append] at hlen hle
        omega
      | none =>
        rw [rb_lbracket_none hfc] at h
        have h2 := List.cons.injEq .. ▸ h
        have h3 : removeBrackets (rest ++ t) = rest ++ t := (List.cons.inj h).2
        rw [rb_lbracket_none (fci_none_of_append hfc), ih t h3]
    · by_cases hc2 : c = '('
      · subst hc2
        cases hfc : findCloseIdx ')' (rest ++ t) with
        | some i =>
          exfalso
          rw [rb_lparen_some hfc] at h
          have hlen := congrArg List.length h
          have hle := removeBrackets_length ((rest ++ t).drop (i + 1))
          simp only [List.length_drop, List.length_cons, List.length_append] at hlen hle
          omega
        | none =>
          rw [rb_lparen_none hfc] at h
          have h3 : removeBrackets (rest ++ t) = rest ++ t := (List.cons.inj h).2
          rw [rb_lparen_none (fci_none_of_append hfc), ih t h3]
      · rw [rb_other hc1 hc2] at h
        have h3 : removeBrackets (rest ++ t) = rest ++ t := (List.cons.inj h).2
        rw [rb_other hc1 hc2, ih t h3]

/-- A scanner fixpoint's tail is a fixpoint. -/
theorem rb_fix_tail {c : Char} {rest : List Char}
    (h : removeBrackets (c :: rest) = c :: rest) : removeBrackets rest = rest := by
  by_cases hc1 : c = '['
  · subst hc1
    cases hfc : findCloseIdx ']' rest with
    | some i =>
      exfalso
      rw [rb_lbracket_some hfc] at h
      have hlen := congrArg List.length h
      have hle := removeBrackets_length (rest.drop (i + 1))
      simp only [List.length_drop, List.length_cons] at hlen hle
      omega
    | none =>
      rw [rb_lbracket_none hfc] at h
      exact (List.cons.inj h).2
  · by_cases hc2 : c = '('
    · subst hc2
      cases hfc : findCloseIdx ')' rest with
      | some i =>
        exfalso
        rw [rb_lparen_some hfc] at h
        have hlen := congrArg List.length h
        have hle := removeBrackets_length (rest.drop (i + 1))
        simp only [List.length_drop, List.length_cons] at hlen hle
        omega
      | none =>
        rw [rb_lparen_none hfc] at h
        exact (List.cons.inj h).2
    · rw [rb_other hc1 hc2] at h
      exact (List.cons.inj h).2

theorem rb_fix_dropWhile (p : Char → Bool) : ∀ {l : List Char},
    removeBrackets l = l → removeBrackets (l.dropWhile p) = l.dropWhile p := by
  intro l
  induction l with
  | nil => intro _; simp [rb_nil]
  | cons c rest ih =>
    intro h
    rw [List.dropWhile_cons]
    by_cases hp : p c = true
    · rw [if_pos hp]
      exact ih (rb_fix_tail h)
    · rw [if_neg hp]
      exact h

theorem takeWhile_all (p : Char → Bool) : ∀ l : List Char, (l.takeWhile p).all p = true := by
  intro l
  induction l with
  | nil => rfl
  | cons c rest ih =>
    rw [List.takeWhile_cons]
    by_cases hp : p c = true
    · rw [if_pos hp]
      simp [hp, ih]
    · rw [if_neg hp]
      rfl

/-- Decomposition of a list into its right-trim and trimmed tail. -/
theorem rtrim_decomp (p : Char → Bool) (l : List Char) :
    rtrimBy p l ++ (l.reverse.takeWhile p).reverse = l ∧
    ((l.reverse.takeWhile p).reverse).all p = true := by
  constructor
  · unfold rtrimBy
    rw [← List.reverse_append, List.takeWhile_append_dropWhile, List.reverse_reverse]
  · rw [List.all_reverse]
    exact takeWhile_all p l.reverse

theorem rb_fix_rtrim (p : Char → Bool) {l : List Char}
    (h : removeBrackets l = l) : removeBrackets (rtrimBy p l) = rtrimBy p l := by
  obtain ⟨hdec, _⟩ := rtrim_decomp p l
  exact rb_fix_append_left _ _ (by rw [hdec]; exact h)

theorem head?_dropWhile (p : Char → Bool) : ∀ {l : List Char} {x : Char},
    (l.dropWhile p).head? = some x → p x = false := by
  intro l
  induction l with
  | nil => intro x h; cases h
  | cons c rest ih =>
    intro x h
    rw [List.dropWhile_cons] at h
    by_cases hp : p c = true
    · rw [if_pos hp] at h; exact ih h
    · rw [if_neg hp] at h
      cases h
      exact Bool.eq_false_iff.mpr hp

theorem ltrim_eq_self_of_head (p : Char → Bool) {l : List Char}
    (h : ∀ x, l.head? = some x → p x = false) : ltrimBy p l = l := by
  cases l with
  | nil => rfl
  | cons c rest =>
    unfold ltrimBy
    rw [List.dropWhile_cons, if_neg]
    rw [h c rfl]
    simp

theorem rtrim_eq_self_of_getLast (p : Char → Bool) {l : List Char}
    (h : ∀ x, l.getLast? = some x → p x = false) : rtrimBy p l = l := by
  unfold rtrimBy
  have hd : l.reverse.dropWhile p = l.reverse := by
    have := ltrim_eq_self_of_head p (l := l.reverse)
      (fun x hx => h x (by rwa [List.head?_reverse] at hx))
    simpa [ltrimBy] using this
  rw [hd, List.reverse_reverse]

theorem getLast?_dropWhile (p : Char → Bool) : ∀ {l : List Char},
    l.dropWhile p ≠ [] → (l.dropWhile p).getLast? = l.getLast? := by
  intro l
  induction l with
  | nil => intro h; exact absurd rfl h
  | cons c rest ih =>
    intro h
    rw [List.dropWhile_cons] at h ⊢
    by_cases hp : p c = true
    · rw [if_pos hp] at h ⊢
      have hrest : rest ≠ [] := by
        intro he
        rw [he] at h
        exact h rfl
      rw [ih h]
      cases rest with
      | nil => exact absurd rfl hrest
      | cons d ds => rw [List.getLast?_cons_cons]
    · rw [if_neg hp]

/-- Both-ends trimming is idempotent. -/
theorem trim_idem (p : Char → Bool) (l : List Char) :
    trimBy p (trimBy p l) = trimBy p l := by
  by_cases hnil : trimBy p l = []
  · rw [hnil]; rfl
  · have hhead : ∀ x, (trimBy p l).head? = some x → p x = false := by
      intro x hx
      exact head?_dropWhile p hx
    have hlast : ∀ x, (trimBy p l).getLast? = some x → p x = false := by
      intro x hx
      unfold trimBy ltrimBy at hx hnil
      rw [getLast?_dropWhile p hnil] at hx
      unfold rtrimBy at hx
      rw [← List.head?_reverse, List.reverse_reverse] at hx
      exact head?_dropWhile p hx
    show ltrimBy p (rtrimBy p (trimBy p l)) = trimBy p l
    rw [rtrim_eq_self_of_getLast p hlast, ltrim_eq_self_of_head p hhead]

theorem list_map_eq_self {f : Char → Char} :
    ∀ {l : List Char}, (∀ x ∈ l, f x = x) → l.map f = l := by
  intro l
  induction l with
  | nil => intro _; rfl
  | cons c rest ih =>
    intro h
    rw [List.map_cons, h c (List.mem_cons_self c rest),
      ih (fun x hx => h x (List.mem_cons_of_mem c hx))]

theorem dropWhile_eq_self_of {p : Char → Bool} :
    ∀ {l : List Char}, (∀ x ∈ l, p x = false) → l.dropWhile p = l := by
  intro l
  induction l with
  | nil => intro _; rfl
  | cons c rest _ =>
    intro h
    rw [List.dropWhile_cons, h c (List.mem_cons_self c rest)]
    simp

theorem trimBy_eq_self {p : Char → Bool} {l : List Char}
    (h : ∀ x ∈ l, p x = false) : trimBy p l = l := by
  unfold trimBy ltrimBy rtrimBy
  rw [dropWhile_eq_self_of (fun x hx => h x (List.mem_reverse.mp hx)), List.reverse_reverse,
    dropWhile_eq_self_of h]

theorem removeBrackets_eq_self :
    ∀ {l : List Char}, (∀ x ∈ l, x ≠ '[' ∧ x ≠ '(') → removeBrackets l = l := by
  intro l
  induction l with
  | nil => intro _; simp [removeBrackets]
  | cons c rest ih =>
    intro h
    have hc := h c (List.mem_cons_self c rest)
    have ih2 := ih (fun x hx => h x (List.mem_cons_of_mem c hx))
    simp only [removeBrackets]
    rw [if_neg hc.1, if_neg hc.2, ih2]

theorem digit_char_facts {c : Char} (h : c.isDigit = true) :
    c ≠ '[' ∧ c ≠ '(' ∧ pyWs c = false := by
  refine ⟨?_, ?_, ?_⟩
  · intro he; rw [he] at h; exact absurd h (by decide)
  · intro he; rw [he] at h; exact absurd h (by decide)
  · cases hw : pyWs c
    · rfl
    · exfalso
      unfold pyWs at hw
      simp only [decide_eq_true_eq] at hw
      rcases hw with h1 | h1 | h1 | h1 | h1 | h1 | h1 | h1 <;>
        (rw [h1] at h; exact absurd h (by decide))

/-- Auxiliary form of the bare-year guard of the date parser. -/
theorem parse_bare_year_none (pandasParse : List (List Char) → Option PyDate)
    (fb : Option Nat) (c1 c2 c d : Char)
    (h12 : (c1 = '1' ∧ c2 = '9') ∨ (c1 = '2' ∧ c2 = '0'))
    (hc : c.isDigit = true) (hd : d.isDigit = true) :
    parse_date_with_fallback pandasParse [c1, c2, c, d] fb = none := by
  have hc1 : c1.isDigit = true := by
    rcases h12 with ⟨h1, _⟩ | ⟨h1, _⟩ <;> rw [h1] <;> decide
  have hc2 : c2.isDigit = true := by
    rcases h12 with ⟨_, h2⟩ | ⟨_, h2⟩ <;> rw [h2] <;> decide
  have hfacts : ∀ x ∈ [c1, c2, c, d], x ≠ '[' ∧ x ≠ '(' ∧ pyWs x = false := by
    intro x hx
    simp only [List.mem_cons, List.not_mem_nil, or_false] at hx
    rcases hx with rfl | rfl | rfl | rfl
    · exact digit_char_facts hc1
    · exact digit_char_facts hc2
    · exact digit_char_facts hc
    · exact digit_char_facts hd
  have hnb : nbspToSpace [c1, c2, c, d] = [c1, c2, c, d] := by
    unfold nbspToSpace
    apply list_map_eq_self
    intro x hx
    have hf := (hfacts x hx).2.2
    rw [if_neg]
    rintro (he | he) <;> rw [he] at hf <;> exact absurd hf (by decide)
  have ht : nbspToSpace (pyStrip (removeBrackets [c1, c2, c, d])) = [c1, c2, c, d] := by
    rw [removeBrackets_eq_self (fun x hx => ⟨(hfacts x hx).1, (hfacts x hx).2.1⟩)]
    unfold pyStrip
    rw [trimBy_eq_self (fun x hx => (hfacts x hx).2.2)]
    exact hnb
  have hA : ¬(([c1, c2, c, d] : List Char).isEmpty = true ∨
      [c1, c2, c, d].map pyLower = strL "nan") := by
    rintro (hA | hA)
    · simp at hA
    · have hlen := congrArg List.length hA
      simp [strL] at hlen
  have hB : isBareYear [c1, c2, c, d] = true := by
    unfold isBareYear
    simp only [decide_eq_true_eq]
    exact ⟨h12, hc, hd⟩
  simp only [parse_date_with_fallback, ht]
  rw [if_neg hA, if_pos hB]

/-- C9: the chart-date parser is total by construction (it returns an
optional date for every input string and fallback year, with the lenient
pandas fallback abstracted as an arbitrary total oracle), and it returns
none on the empty string, on a "nan" cell, and on every bare four-digit
year cell — for every fallback year and every behaviour of the fallback
parser. -/
theorem c9_date_parser_total_guards
    (pandasParse : List (List Char) → Option PyDate) (fb : Option Nat) :
    parse_date_with_fallback pandasParse [] fb = none ∧
    parse_date_with_fallback pandasParse (strL "NaN") fb = none ∧
    (∀ c d : Char, c.isDigit = true → d.isDigit = true →
      parse_date_with_fallback pandasParse ['1', '9', c, d] fb = none ∧
      parse_date_with_fallback pandasParse ['2', '0', c, d] fb = none) := by
  refine ⟨?_, ?_, ?_⟩
  · simp [parse_date_with_fallback, removeBrackets, pyStrip, trimBy, ltrimBy, rtrimBy,
      nbspToSpace]
  · simp [parse_date_with_fallback, removeBrackets, findCloseIdx, pyStrip, trimBy, ltrimBy,
      rtrimBy, nbspToSpace, pyWs, pyLower, strL]
  · intro c d hc hd
    exact ⟨parse_bare_year_none pandasParse fb '1' '9' c d (Or.inl ⟨rfl, rfl⟩) hc hd,
           parse_bare_year_none pandasParse fb '2' '0' c d (Or.inr ⟨rfl, rfl⟩) hc hd⟩

theorem c9_date_parser_total_guards_witness :
    ('5' : Char).isDigit = true ∧ ('0' : Char).isDigit = true ∧
    parse_date_with_fallback (fun _ => none) ['1', '9', '5', '0'] none = none ∧
    parse_date_with_fallback (fun _ => none) ['2', '0', '5', '0'] none = none :=
  ⟨by decide, by decide,
   ((c9_date_parser_total_guards (fun _ => none) none).2.2 '5' '0' (by decide) (by decide)).1,
   ((c9_date_parser_total_guards (fun _ => none) none).2.2 '5' '0' (by decide) (by decide)).2⟩

/-- C10: the not-found summary contains each (raw song, raw artist) pair
at most once and is sorted ascending by lowercased artist and then by
lowercased song. -/
theorem c10_not_found_summary_sorted_and_unique (pairs : List (String × String)) :
    (notFoundSummary pairs).Sorted notFoundLE ∧ (notFoundSummary pairs).Nodup := by
  constructor
  · exact List.sorted_insertionSort notFoundLE pairs.dedup
  · exact ((List.perm_insertionSort notFoundLE pairs.dedup).nodup_iff).mpr
      (List.nodup_dedup pairs)

/-- Core of the idempotence analysis: a second cleaning pass changes
nothing when the first pass's result has no double quote at either end. -/
theorem clean_song_title_l_idem (l : List Char)
    (h1 : ∀ x, (clean_song_title_l l).head? = some x → x ≠ '"')
    (h2 : ∀ x, (clean_song_title_l l).getLast? = some x → x ≠ '"') :
    clean_song_title_l (clean_song_title_l l) = clean_song_title_l l := by
  have hq : trimBy (fun c => c = '"') (clean_song_title_l l) = clean_song_title_l l := by
    show ltrimBy _ (rtrimBy _ _) = _
    rw [rtrim_eq_self_of_getLast _ (fun x hx => decide_eq_false (h2 x hx)),
        ltrim_eq_self_of_head _ (fun x hx => decide_eq_false (h1 x hx))]
  have hrb : removeBrackets (clean_song_title_l l) = clean_song_title_l l := by
    have hR : removeBrackets (removeBrackets (trimBy (fun c => c = '"') l)) =
        removeBrackets (trimBy (fun c => c = '"') l) := rb_idem _
    have h3 := rb_fix_rtrim pyWs hR
    exact rb_fix_dropWhile pyWs h3
  show pyStrip (removeBrackets (trimBy _ (clean_song_title_l l))) = _
  rw [hq, hrb]
  exact trim_idem pyWs _

/-- C2 counterexample: `clean_song_title` is not idempotent.  On
`(a)"b"` the first pass strips the outer quotes, removes `(a)` and leaves
`"b` with an exposed leading quote, which a second pass then strips. -/
theorem c2_counterexample_not_idempotent :
    clean_song_title (clean_song_title "(a)\"b\"") ≠ clean_song_title "(a)\"b\"" := by
  have h1 : clean_song_title "(a)\"b\"" = "\"b" := by
    simp [clean_song_title, clean_song_title_l, pyStrip, trimBy, ltrimBy, rtrimBy,
      removeBrackets, findCloseIdx, pyWs]
  have h2 : clean_song_title "\"b" = "b" := by
    simp [clean_song_title, clean_song_title_l, pyStrip, trimBy, ltrimBy, rtrimBy,
      removeBrackets, findCloseIdx, pyWs]
  rw [h1, h2]
  decide

/-- C2 (amended): `clean_song_title` is idempotent on every string whose
cleaned form neither starts nor ends with a double quote; in general a
second application can only additionally strip quote characters that the
bracket removal exposed at the ends. -/
theorem c2_clean_song_title_idempotent_no_quote_exposure (s : String)
    (h1 : ∀ x, (clean_song_title s).data.head? = some x → x ≠ '"')
    (h2 : ∀ x, (clean_song_title s).data.getLast? = some x → x ≠ '"') :
    clean_song_title (clean_song_title s) = clean_song_title s := by
  have h := clean_song_title_l_idem s.data h1 h2
  unfold clean_song_title
  exact congrArg String.mk h

theorem c2_clean_song_title_idempotent_no_quote_exposure_witness :
    (∀ x, (clean_song_title "hello").data.head? = some x → x ≠ '"') ∧
    (∀ x, (clean_song_title "hello").data.getLast? = some x → x ≠ '"') ∧
    clean_song_title (clean_song_title "hello") = clean_song_title "hello" := by
  have hh : clean_song_title "hello" = "hello" := by
    simp [clean_song_title, clean_song_title_l, pyStrip, trimBy, ltrimBy, rtrimBy,
      removeBrackets, findCloseIdx, pyWs]
  have hhd : ∀ x, (clean_song_title "hello").data.head? = some x → x ≠ '"' := by
    rw [hh]
    intro x hx
    simp [String.data] at hx
    subst hx
    decide
  have hlast : ∀ x, (clean_song_title "hello").data.getLast? = some x → x ≠ '"' := by
    rw [hh]
    intro x hx
    simp [String.data] at hx
    subst hx
    decide
  exact ⟨hhd, hlast, c2_clean_song_title_idempotent_no_quote_exposure "hello" hhd hlast⟩

/-! ### Appending text to the bracket scanner's input -/

theorem rb_eq_self_of_no_closers : ∀ {l : List Char}, ']' ∉ l → ')' ∉ l →
    removeBrackets l = l := by
  intro l
  induction l using removeBrackets.induct with
  | case1 => intro _ _; exact rb_nil
  | case2 rest i hfc ih =>
    intro hb hp
    exfalso
    have : (']' : Char) ∉ rest := fun hm => hb (List.mem_cons_of_mem _ hm)
    rw [fci_none_of_not_mem this] at hfc
    cases hfc
  | case3 rest hfc ih =>
    intro hb hp
    rw [rb_lbracket_none hfc,
      ih (fun hm => hb (List.mem_cons_of_mem _ hm)) (fun hm => hp (List.mem_cons_of_mem _ hm))]
  | case4 rest i hfc _ ih =>
    intro hb hp
    exfalso
    have : (')' : Char) ∉ rest := fun hm => hp (List.mem_cons_of_mem _ hm)
    rw [fci_none_of_not_mem this] at hfc
    cases hfc
  | case5 rest hfc _ ih =>
    intro hb hp
    rw [rb_lparen_none hfc,
      ih (fun hm => hb (List.mem_cons_of_mem _ hm)) (fun hm => hp (List.mem_cons_of_mem _ hm))]
  | case6 c rest h1 h2 ih =>
    intro hb hp
    rw [rb_other h1 h2,
      ih (fun hm => hb (List.mem_cons_of_mem _ hm)) (fun hm => hp (List.mem_cons_of_mem _ hm))]

/-- Text containing no closing bracket passes through the scanner
unchanged and cannot affect the scan of what precedes it. -/
theorem rb_append_no_closers {ext : List Char} (hb : ']' ∉ ext) (hp : ')' ∉ ext) :
    ∀ u : List Char, removeBrackets (u ++ ext) = removeBrackets u ++ ext := by
  intro u
  induction u using removeBrackets.induct with
  | case1 => rw [List.nil_append, rb_nil, List.nil_append]; exact rb_eq_self_of_no_closers hb hp
  | case2 rest i hfc ih =>
    rw [List.cons_append, rb_lbracket_some (fci_append_some ext hfc),
      List.drop_append_of_le_length (by have := fci_lt hfc; omega), ih,
      rb_lbracket_some hfc]
  | case3 rest hfc ih =>
    rw [List.cons_append, rb_lbracket_none (fci_append_none_of_not_mem ext hfc hb), ih,
      rb_lbracket_none hfc, List.cons_append]
  | case4 rest i hfc _ ih =>
    rw [List.cons_append, rb_lparen_some (fci_append_some ext hfc),
      List.drop_append_of_le_length (by have := fci_lt hfc; omega), ih,
      rb_lparen_some hfc]
  | case5 rest hfc _ ih =>
    rw [List.cons_append, rb_lparen_none (fci_append_none_of_not_mem ext hfc hp), ih,
      rb_lparen_none hfc, List.cons_append]
  | case6 c rest h1 h2 ih =>
    rw [List.cons_append, rb_other h1 h2, ih, rb_other h1 h2, List.cons_append]

theorem pOk_nil : parenOk [] = true := by simp [parenOk]

theorem pOk_lbracket_some {rest : List Char} {i : Nat} (h : findCloseIdx ']' rest = some i) :
    parenOk ('[' :: rest) = parenOk (rest.drop (i + 1)) := by
  simp [parenOk, h]

theorem pOk_lbracket_none {rest : List Char} (h : findCloseIdx ']' rest = none) :
    parenOk ('[' :: rest) = parenOk rest := by
  simp [parenOk, h]

theorem pOk_lparen_some {rest : List Char} {i : Nat} (h : findCloseIdx ')' rest = some i) :
    parenOk ('(' :: rest) = parenOk (rest.drop (i + 1)) := by
  simp [parenOk, h]

theorem pOk_lparen_none {rest : List Char} (h : findCloseIdx ')' rest = none) :
    parenOk ('(' :: rest) = (rest.contains '\n' && parenOk rest) := by
  simp [parenOk, h]

theorem pOk_other {c : Char} {rest : List Char} (h1 : c ≠ '[') (h2 : c ≠ '(') :
    parenOk (c :: rest) = parenOk rest := by
  simp [parenOk, h1, h2]

/-- Appending ` (2011 Remaster)` to a paren-safe input appends exactly
one space to the scanner's output (the parenthetical is removed). -/
theorem rb_append_remaster : ∀ {u : List Char}, parenOk u = true →
    removeBrackets (u ++ strL " (2011 Remaster)") = removeBrackets u ++ [' '] := by
  intro u
  induction u using removeBrackets.induct with
  | case1 =>
    intro _
    rw [List.nil_append, rb_nil, List.nil_append]
    simp [removeBrackets, findCloseIdx, strL]
  | case2 rest i hfc ih =>
    intro hp
    rw [pOk_lbracket_some hfc] at hp
    rw [List.cons_append, rb_lbracket_some (fci_append_some _ hfc),
      List.drop_append_of_le_length (by have := fci_lt hfc; omega), ih hp,
      rb_lbracket_some hfc]
  | case3 rest hfc ih =>
    intro hp
    rw [pOk_lbracket_none hfc] at hp
    rw [List.cons_append,
      rb_lbracket_none (fci_append_none_of_not_mem _ hfc (by decide)), ih hp,
      rb_lbracket_none hfc, List.cons_append]
  | case4 rest i hfc _ ih =>
    intro hp
    rw [pOk_lparen_some hfc] at hp
    rw [List.cons_append, rb_lparen_some (fci_append_some _ hfc),
      List.drop_append_of_le_length (by have := fci_lt hfc; omega), ih hp,
      rb_lparen_some hfc]
  | case5 rest hfc _ ih =>
    intro hp
    rw [pOk_lparen_none hfc] at hp
    simp only [Bool.and_eq_true] at hp
    obtain ⟨hnl, hp2⟩ := hp
    have hmem : '\n' ∈ rest := by
      have := List.elem_iff.mp hnl
      exact this
    rw [List.cons_append,
      rb_lparen_none (fci_append_none_of_newline _ hfc hmem), ih hp2,
      rb_lparen_none hfc, List.cons_append]
  | case6 c rest h1 h2 ih =>
    intro hp
    rw [pOk_other h1 h2] at hp
    rw [List.cons_append, rb_other h1 h2, ih hp, rb_other h1 h2, List.cons_append]

theorem dropWhile_append_all {p : Char → Bool} : ∀ {t : List Char} (y : List Char),
    t.all p = true → (t ++ y).dropWhile p = y.dropWhile p := by
  intro t
  induction t with
  | nil => intro y _; rfl
  | cons c rest ih =>
    intro y ht
    simp only [List.all_cons, Bool.and_eq_true] at ht
    obtain ⟨hc, hrest⟩ := ht
    rw [List.cons_append, List.dropWhile_cons, if_pos hc, ih y hrest]

theorem rtrim_append_ws {p : Char → Bool} (x t : List Char) (ht : t.all p = true) :
    rtrimBy p (x ++ t) = rtrimBy p x := by
  unfold rtrimBy
  rw [List.reverse_append, dropWhile_append_all _ (by rwa [List.all_reverse])]

theorem trim_append_ws {p : Char → Bool} (x t : List Char) (ht : t.all p = true) :
    trimBy p (x ++ t) = trimBy p x := by
  unfold trimBy
  rw [rtrim_append_ws x t ht]

theorem dropWhile_append_of_ext_head {p : Char → Bool} {ext : List Char}
    (h : ∀ a, ext.head? = some a → p a = false) :
    ∀ x : List Char, (x ++ ext).dropWhile p = x.dropWhile p ++ ext := by
  intro x
  induction x with
  | nil =>
    show List.dropWhile p ([] ++ ext) = List.dropWhile p [] ++ ext
    rw [List.nil_append, List.dropWhile_nil, List.nil_append]
    exact ltrim_eq_self_of_head p h
  | cons c rest ih =>
    rw [List.cons_append, List.dropWhile_cons, List.dropWhile_cons]
    by_cases hp : p c = true
    · rw [if_pos hp, if_pos hp, ih]
    · rw [if_neg hp, if_neg hp, List.cons_append]

/-- Appending ` (2011 Remaster)` does not change the cleaned title, as
long as the raw title has no trailing quote and its quote-trimmed form is
paren-safe. -/
theorem clean_append_remaster (l : List Char)
    (hq : ∀ x, l.getLast? = some x → x ≠ '"')
    (hp : parenOk (trimBy (fun c => c = '"') l) = true) :
    clean_song_title_l (l ++ strL " (2011 Remaster)") = clean_song_title_l l := by
  have hql : rtrimBy (fun c => c = '"') l = l :=
    rtrim_eq_self_of_getLast _ (fun x hx => decide_eq_false (hq x hx))
  have h1 : trimBy (fun c => c = '"') (l ++ strL " (2011 Remaster)") =
      trimBy (fun c => c = '"') l ++ strL " (2011 Remaster)" := by
    show ltrimBy _ (rtrimBy _ _) = _
    rw [rtrim_eq_self_of_getLast _ (fun x hx => by
      rw [List.getLast?_append_of_ne_nil _ (by decide)] at hx
      have : x = ')' := by
        have hg : (strL " (2011 Remaster)").getLast? = some ')' := by decide
        rw [hg] at hx
        exact (Option.some.inj hx).symm
      rw [this]
      decide)]
    unfold trimBy ltrimBy
    rw [hql]
    exact dropWhile_append_of_ext_head (by intro a ha; cases ha; decide) l
  unfold clean_song_title_l
  rw [h1, rb_append_remaster hp]
  unfold pyStrip
  exact trim_append_ws _ [' '] (by decide)

theorem boundary_prevW (p n : Option Char) :
    boundary p n = (prevW p != match n with | some c => isWordChar c | none => false) := by
  cases p <;> rfl

theorem boundary_congr {p q : Option Char} (h : prevW p = prevW q) (n : Option Char) :
    boundary p n = boundary q n := by
  rw [boundary_prevW, boundary_prevW, h]

theorem lastOr_prevW_congr {p q : Option Char} (h : prevW p = prevW q) (s : List Char) :
    prevW (lastOr s p) = prevW (lastOr s q) := by
  unfold lastOr
  cases s.getLast? with
  | none => exact h
  | some c => rfl

theorem isNone_orElse (a b : Option α) : (a <|> b).isNone = (a.isNone && b.isNone) := by
  cases a <;> rfl

theorem matchToks_isNone_congr : ∀ (ts : List Tok) {p q : Option Char},
    prevW p = prevW q → ∀ l, (matchToks ts p l).isNone = (matchToks ts q l).isNone := by
  intro ts
  induction ts with
  | nil => intro p q h l; rfl
  | cons t ts ih =>
    intro p q h l
    cases t with
    | wb =>
      simp only [matchToks]
      rw [boundary_congr h l.head?]
      cases boundary q l.head? with
      | true => simp only [if_true]; exact ih h l
      | false => simp
    | lit s =>
      simp only [matchToks]
      cases stripLit s l with
      | none => rfl
      | some l2 => exact ih (lastOr_prevW_congr h s) l2
    | litOpt s =>
      simp only [matchToks]
      cases stripLit s l with
      | none =>
        simp only []
        rw [isNone_orElse, isNone_orElse, ih h l]
      | some l2 =>
        simp only []
        rw [isNone_orElse, isNone_orElse, ih (lastOr_prevW_congr h s) l2, ih h l]
    | ws1 =>
      simp only [matchToks]
      cases (l.takeWhile pyWs).isEmpty with
      | true => simp
      | false =>
        simp only [Bool.false_eq_true, if_false]
        exact ih (lastOr_prevW_congr h _) _
    | ws0 =>
      simp only [matchToks]
      exact ih (lastOr_prevW_congr h _) _
    | digits n =>
      simp only [matchToks]
      by_cases hc : (l.take n).length = n ∧ (l.take n).all Char.isDigit
      · rw [if_pos hc, if_pos hc]; exact ih (lastOr_prevW_congr h _) _
      · rw [if_neg hc, if_neg hc]
    | anyOf cs =>
      simp only [matchToks]

theorem matchAlts_isNone_congr : ∀ (alts : List (List Tok)) {p q : Option Char},
    prevW p = prevW q → ∀ l, (matchAlts alts p l).isNone = (matchAlts alts q l).isNone := by
  intro alts
  induction alts with
  | nil => intro p q h l; rfl
  | cons ts alts ih =>
    intro p q h l
    simp only [matchAlts]
    rw [isNone_orElse, isNone_orElse, matchToks_isNone_congr ts h l, ih h l]

/-- If no alternative matches `l` for a word-class and a non-word-class
pre-scan character, none matches for any pre-scan character. -/
theorem matchAlts_none_of_two {alts : List (List Tok)} {l : List Char}
    (ha : (matchAlts alts (some 'a') l).isNone = true)
    (hn : (matchAlts alts none l).isNone = true) :
    ∀ prev, matchAlts alts prev l = none := by
  intro prev
  cases hw : prevW prev with
  | false =>
    have h : prevW prev = prevW (none : Option Char) := hw
    rw [← Option.isNone_iff_eq_none, matchAlts_isNone_congr alts h l]
    exact hn
  | true =>
    have h : prevW prev = prevW (some 'a') := by rw [hw]; decide
    rw [← Option.isNone_iff_eq_none, matchAlts_isNone_congr alts h l]
    exact ha

theorem reSub_nil (alts : List (List Tok)) (repl : List Char) (prev : Option Char) :
    reSub alts repl prev [] = [] := by
  simp [reSub]

theorem reSub_cons_match {alts : List (List Tok)} {repl : List Char} {prev : Option Char}
    {c : Char} {rest : List Char} {p2 : Option Char} {rem : List Char}
    (h : matchAlts alts prev (c :: rest) = some (p2, rem))
    (hlt : rem.length < rest.length + 1) :
    reSub alts repl prev (c :: rest) = repl ++ reSub alts repl p2 rem := by
  simp [reSub, h, hlt]

theorem reSub_cons_match_big {alts : List (List Tok)} {repl : List Char} {prev : Option Char}
    {c : Char} {rest : List Char} {p2 : Option Char} {rem : List Char}
    (h : matchAlts alts prev (c :: rest) = some (p2, rem))
    (hlt : ¬ rem.length < rest.length + 1) :
    reSub alts repl prev (c :: rest) = c :: reSub alts repl (some c) rest := by
  simp [reSub, h, hlt]

theorem reSub_cons_none {alts : List (List Tok)} {repl : List Char} {prev : Option Char}
    {c : Char} {rest : List Char}
    (h : matchAlts alts prev (c :: rest) = none) :
    reSub alts repl prev (c :: rest) = c :: reSub alts repl (some c) rest := by
  simp [reSub, h]

/-- A string at no position of which any alternative can match is a
fixed point of the substitution, whatever the pre-scan character. -/
theorem reSub_id_of_noMatchTwo (alts : List (List Tok)) (repl : List Char) :
    ∀ l : List Char, noMatchTwo alts l = true → ∀ prev, reSub alts repl prev l = l := by
  intro l
  induction l with
  | nil => intro _ prev; exact reSub_nil alts repl prev
  | cons c rest ih =>
    intro h prev
    simp only [noMatchTwo, Bool.and_eq_true] at h
    obtain ⟨⟨ha, hn⟩, hrest⟩ := h
    rw [reSub_cons_none (matchAlts_none_of_two ha hn prev), ih hrest (some c)]

theorem hE_year_radio : ∀ prev, reSub [yearToks] [] prev (strL " - radio edit") = strL " - radio edit" :=
  reSub_id_of_noMatchTwo _ _ _ (by decide)

theorem hE_remYear_radio : ∀ prev, reSub [tagRemYear] [] prev (strL " - radio edit") = strL " - radio edit" :=
  reSub_id_of_noMatchTwo _ _ _ (by decide)

theorem hE_mix_dash : ∀ prev, reSub [tagMix] [] prev (strL " - ") = strL " - " :=
  reSub_id_of_noMatchTwo _ _ _ (by decide)

set_option maxHeartbeats 1000000 in
theorem hE_radioEdit : ∀ prev,
    reSub [tagRadioEdit] [] prev (strL " - radio edit") = strL " - " := by
  intro prev
  have hc : strL " - radio edit" = ' ' :: strL "- radio edit" := rfl
  have h0 : matchAlts [tagRadioEdit] prev (' ' :: strL "- radio edit") = none :=
    matchAlts_none_of_two (by decide) (by decide) prev
  rw [hc, reSub_cons_none h0]
  simp [reSub, matchAlts, matchToks, stripLit, boundary, isWordChar, pyWs, lastOr, strL,
    tagRadioEdit, String.data]

theorem extSafe_not_word {a : Char} (h : extSafeChar a = true) : isWordChar a = false := by
  simp [extSafeChar] at h
  simpa using h.1

theorem extSafe_not_apos {a : Char} (h : extSafeChar a = true) : a ≠ '\'' ∧ a ≠ '’' := by
  simp [extSafeChar] at h
  exact ⟨h.2.1, h.2.2⟩

theorem extSafe_not_digit {a : Char} (h : extSafeChar a = true) : a.isDigit = false := by
  have hw := extSafe_not_word h
  cases hd : a.isDigit
  · rfl
  · exfalso
    have hwc : isWordChar a = true := by simp [isWordChar, Char.isAlphanum, hd]
    rw [hw] at hwc
    cases hwc

theorem isEmpty_false_of_ne_nil {l : List Char} (h : l ≠ []) : l.isEmpty = false := by
  cases l with
  | nil => exact absurd rfl h
  | cons c r => rfl

theorem stripLit_append_some : ∀ {s x x2 : List Char}, stripLit s x = some x2 →
    ∀ ext, stripLit s (x ++ ext) = some (x2 ++ ext) := by
  intro s
  induction s with
  | nil =>
    intro x x2 h ext
    cases h
    rfl
  | cons c s' ih =>
    intro x x2 h ext
    cases x with
    | nil => cases h
    | cons d x' =>
      by_cases hcd : c = d
      · rw [List.cons_append]
        unfold stripLit at h ⊢
        rw [if_pos hcd] at h ⊢
        exact ih h ext
      · unfold stripLit at h
        rw [if_neg hcd] at h
        cases h

theorem stripLit_append_none {s : List Char} (hword : s.all isWordChar = true)
    {ext : List Char} (h1 : ∀ a, ext.head? = some a → extSafeChar a = true) :
    ∀ {x : List Char}, stripLit s x = none → stripLit s (x ++ ext) = none := by
  induction s with
  | nil => intro x h; cases h
  | cons c s' ih =>
    simp only [List.all_cons, Bool.and_eq_true] at hword
    obtain ⟨hc, hword'⟩ := hword
    intro x h
    cases x with
    | nil =>
      rw [List.nil_append]
      cases hext : ext with
      | nil => rfl
      | cons e ext0 =>
        have he := h1 e (by rw [hext]; rfl)
        have hne : c ≠ e := by
          intro hce
          rw [hce, extSafe_not_word he] at hc
          cases hc
        unfold stripLit
        rw [if_neg hne]
    | cons d x' =>
      rw [List.cons_append]
      unfold stripLit at h ⊢
      by_cases hcd : c = d
      · rw [if_pos hcd] at h ⊢
        exact ih hword' h
      · rw [if_neg hcd]

/-- A pattern that must consume a character cannot match at the end of
the original input or at a junction character. -/
theorem matchToks_consume_none : ∀ (ts : List Tok), ts.all tokOk = true →
    consumeHead ts = true →
    ∀ (r : List Char), (∀ a, r.head? = some a → extSafeChar a = true) →
    ∀ prev, matchToks ts prev r = none := by
  intro ts hok hch r hr prev
  cases ts with
  | nil => cases hch
  | cons t ts' =>
    simp only [List.all_cons, Bool.and_eq_true] at hok
    obtain ⟨htok, _⟩ := hok
    cases t with
    | wb => simp [consumeHead] at hch
    | ws1 => simp [consumeHead] at hch
    | ws0 => simp [consumeHead] at hch
    | litOpt s => simp [consumeHead] at hch
    | lit s =>
      cases s with
      | nil => simp [tokOk] at htok
      | cons c s' =>
        simp only [tokOk, List.all_cons, Bool.and_eq_true] at htok
        have hcw : isWordChar c = true := htok.2.1
        cases r with
        | nil => rfl
        | cons a r' =>
          have hsa := hr a rfl
          have hca : c ≠ a := by
            intro he
            rw [he, extSafe_not_word hsa] at hcw
            cases hcw
          simp [matchToks, stripLit, hca]
    | digits n =>
      have hn : 0 < n := by simpa [tokOk] using htok
      cases r with
      | nil =>
        simp only [matchToks, List.take_nil, List.length_nil, List.all_nil, and_true]
        rw [if_neg (by omega)]
      | cons a r' =>
        have hsa := hr a rfl
        have hcond : ¬(((a :: r').take n).length = n ∧ ((a :: r').take n).all Char.isDigit) := by
          rintro ⟨hL, hD⟩
          have hmem : a ∈ (a :: r').take n := by
            cases n with
            | zero => omega
            | succ m => simp [List.take_succ_cons]
          have hdig := List.all_eq_true.mp hD a hmem
          rw [extSafe_not_digit hsa] at hdig
          cases hdig
        simp only [matchToks]
        rw [if_neg hcond]
    | anyOf cs =>
      cases r with
      | nil => rfl
      | cons a r' =>
        have hsa := hr a rfl
        have hna : a ∉ cs := by
          intro hmem
          have hap : ∀ x ∈ cs, x = '\'' ∨ x = '’' := by simpa [tokOk] using htok
          rcases hap a hmem with h | h
          · exact (extSafe_not_apos hsa).1 h
          · exact (extSafe_not_apos hsa).2 h
        simp [matchToks, hna]

/-- Appending junction-headed text to the input commutes with matching:
the appended text is never inspected beyond what the conditions allow,
and simply rides along in the unconsumed suffix. -/
theorem matchToks_append {ext : List Char}
    (h1 : ∀ a, ext.head? = some a → extSafeChar a = true)
    (h2 : ∀ a, (ext.dropWhile pyWs).head? = some a → extSafeChar a = true) :
    ∀ (ts : List Tok), ts.all tokOk = true → wsNext ts = true →
    ∀ (prev : Option Char) (x : List Char),
    matchToks ts prev (x ++ ext) =
      Option.map (fun pr => (pr.1, pr.2 ++ ext)) (matchToks ts prev x) := by
  intro ts
  induction ts with
  | nil => intro _ _ prev x; rfl
  | cons t ts ih =>
    intro hok hwn prev x
    simp only [List.all_cons, Bool.and_eq_true] at hok
    obtain ⟨htok, hok2⟩ := hok
    cases t with
    | wb =>
      simp only [wsNext] at hwn
      cases x with
      | cons c x2 =>
        simp only [List.cons_append, matchToks, List.head?_cons]
        by_cases hb : boundary prev (some c) = true
        · rw [if_pos hb, if_pos hb]
          exact ih hok2 hwn prev (c :: x2)
        · rw [if_neg hb, if_neg hb]
          rfl
      | nil =>
        rw [List.nil_append]
        have hbe : boundary prev ext.head? = boundary prev (List.head? ([] : List Char)) := by
          cases hext : ext with
          | nil => rfl
          | cons e ext0 =>
            have he := h1 e (by rw [hext]; rfl)
            simp only [List.head?_cons, List.head?_nil]
            rw [boundary_prevW, boundary_prevW]
            show (prevW prev != isWordChar e) = (prevW prev != false)
            rw [extSafe_not_word he]
        simp only [matchToks, hbe]
        by_cases hb : boundary prev (List.head? ([] : List Char)) = true
        · rw [if_pos hb, if_pos hb]
          have h := ih hok2 hwn prev []
          rwa [List.nil_append] at h
        · rw [if_neg hb, if_neg hb]
          rfl
    | lit s =>
      simp only [wsNext] at hwn
      have hword : s.all isWordChar = true := by
        simp only [tokOk, Bool.and_eq_true] at htok
        exact htok.2
      simp only [matchToks]
      cases hsl : stripLit s x with
      | some x2 =>
        rw [stripLit_append_some hsl ext]
        exact ih hok2 hwn (lastOr s prev) x2
      | none =>
        rw [stripLit_append_none hword h1 hsl]
        rfl
    | litOpt s =>
      simp only [wsNext] at hwn
      have hword : s.all isWordChar = true := by
        simp only [tokOk, Bool.and_eq_true] at htok
        exact htok.2
      simp only [matchToks]
      cases hsl : stripLit s x with
      | some x2 =>
        rw [stripLit_append_some hsl ext]
        show (matchToks ts (lastOr s prev) (x2 ++ ext) <|> matchToks ts prev (x ++ ext)) = _
        rw [ih hok2 hwn (lastOr s prev) x2, ih hok2 hwn prev x, ← Option.map_orElse]
      | none =>
        rw [stripLit_append_none hword h1 hsl]
        show ((none : Option (Option Char × List Char)) <|> matchToks ts prev (x ++ ext)) = _
        rw [Option.none_orElse, ih hok2 hwn prev x]
        rfl
    | ws1 =>
      simp only [wsNext, Bool.and_eq_true] at hwn
      obtain ⟨hch, hwn2⟩ := hwn
      by_cases hx : x.dropWhile pyWs = []
      · have hall : ∀ a ∈ x, pyWs a = true := by
          simpa using List.dropWhile_eq_nil_iff.mp hx
        have htw : x.takeWhile pyWs = x := by
          have h := List.takeWhile_append_dropWhile pyWs x
          rwa [hx, List.append_nil] at h
        have hta : (x ++ ext).takeWhile pyWs = x ++ ext.takeWhile pyWs :=
          List.takeWhile_append_of_pos hall
        have hda : (x ++ ext).dropWhile pyWs = ext.dropWhile pyWs :=
          List.dropWhile_append_of_pos hall
        simp only [matchToks, hta, hda, htw, hx]
        cases x with
        | nil =>
          simp only [List.nil_append, List.isEmpty_nil, if_true]
          by_cases hemp : (ext.takeWhile pyWs).isEmpty = true
          · rw [if_pos hemp]
            rfl
          · rw [if_neg hemp,
              matchToks_consume_none ts hok2 hch (ext.dropWhile pyWs) h2 _]
            rfl
        | cons w x2 =>
          simp only [List.isEmpty_cons, Bool.false_eq_true, if_false]
          rw [matchToks_consume_none ts hok2 hch (ext.dropWhile pyWs) h2 _,
            matchToks_consume_none ts hok2 hch [] (by intro a ha; simp at ha) _]
          rfl
      · have hlen : ¬ (x.takeWhile pyWs).length = x.length := by
          intro he
          apply hx
          have happ := List.takeWhile_append_dropWhile pyWs x
          have hl : (x.takeWhile pyWs).length + (x.dropWhile pyWs).length = x.length := by
            rw [← List.length_append, happ]
          exact List.eq_nil_of_length_eq_zero (by omega)
        have hta : (x ++ ext).takeWhile pyWs = x.takeWhile pyWs := by
          rw [List.takeWhile_append, if_neg hlen]
        have hda : (x ++ ext).dropWhile pyWs = x.dropWhile pyWs ++ ext := by
          rw [List.dropWhile_append, if_neg (by rw [isEmpty_false_of_ne_nil hx]; exact Bool.false_ne_true)]
        simp only [matchToks, hta, hda]
        by_cases hemp : (x.takeWhile pyWs).isEmpty = true
        · rw [if_pos hemp, if_pos hemp]
          rfl
        · rw [if_neg hemp, if_neg hemp]
          exact ih hok2 hwn2 _ _
    | ws0 =>
      simp only [wsNext, Bool.and_eq_true] at hwn
      obtain ⟨hch, hwn2⟩ := hwn
      by_cases hx : x.dropWhile pyWs = []
      · have hall : ∀ a ∈ x, pyWs a = true := by
          simpa using List.dropWhile_eq_nil_iff.mp hx
        have htw : x.takeWhile pyWs = x := by
          have h := List.takeWhile_append_dropWhile pyWs x
          rwa [hx, List.append_nil] at h
        have hta : (x ++ ext).takeWhile pyWs = x ++ ext.takeWhile pyWs :=
          List.takeWhile_append_of_pos hall
        have hda : (x ++ ext).dropWhile pyWs = ext.dropWhile pyWs :=
          List.dropWhile_append_of_pos hall
        simp only [matchToks, hta, hda, htw, hx]
        rw [matchToks_consume_none ts hok2 hch (ext.dropWhile pyWs) h2 _,
          matchToks_consume_none ts hok2 hch [] (by intro a ha; simp at ha) _]
        rfl
      · have hlen : ¬ (x.takeWhile pyWs).length = x.length := by
          intro he
          apply hx
          have happ := List.takeWhile_append_dropWhile pyWs x
          have hl : (x.takeWhile pyWs).length + (x.dropWhile pyWs).length = x.length := by
            rw [← List.length_append, happ]
          exact List.eq_nil_of_length_eq_zero (by omega)
        have hta : (x ++ ext).takeWhile pyWs = x.takeWhile pyWs := by
          rw [List.takeWhile_append, if_neg hlen]
        have hda : (x ++ ext).dropWhile pyWs = x.dropWhile pyWs ++ ext := by
          rw [List.dropWhile_append, if_neg (by rw [isEmpty_false_of_ne_nil hx]; exact Bool.false_ne_true)]
        simp only [matchToks, hta, hda]
        exact ih hok2 hwn2 _ _
    | digits n =>
      simp only [wsNext] at hwn
      have hn : 0 < n := by simpa [tokOk] using htok
      by_cases hle : n ≤ x.length
      · have hta : (x ++ ext).take n = x.take n := List.take_append_of_le_length hle
        have hda : (x ++ ext).drop n = x.drop n ++ ext := List.drop_append_of_le_length hle
        simp only [matchToks, hta, hda]
        by_cases hc : (x.take n).length = n ∧ (x.take n).all Char.isDigit
        · rw [if_pos hc, if_pos hc]
          exact ih hok2 hwn _ _
        · rw [if_neg hc, if_neg hc]
          rfl
      · have hxr : x.take n = x := List.take_of_length_le (by omega)
        have hR : matchToks (Tok.digits n :: ts) prev x = none := by
          simp only [matchToks]
          rw [if_neg]
          rintro ⟨hL, _⟩
          rw [hxr] at hL
          omega
        rw [hR]
        cases hext : ext with
        | nil =>
          rw [List.append_nil, hR]
          rfl
        | cons e ext0 =>
          have he := h1 e (by rw [hext]; rfl)
          simp only [matchToks]
          rw [if_neg]
          · rfl
          · rintro ⟨hL, hD⟩
            have hmem : e ∈ (x ++ e :: ext0).take n := by
              rw [List.take_append_eq_append_take]
              apply List.mem_append_right
              have hpos : 0 < n - x.length := by omega
              cases hk : n - x.length with
              | zero => omega
              | succ m =>
                rw [List.take_succ_cons]
                exact List.mem_cons_self e _
            have hdig := List.all_eq_true.mp hD e hmem
            rw [extSafe_not_digit he] at hdig
            cases hdig
    | anyOf cs =>
      simp only [wsNext] at hwn
      cases x with
      | nil =>
        rw [List.nil_append]
        cases hext : ext with
        | nil => rfl
        | cons e ext0 =>
          have he := h1 e (by rw [hext]; rfl)
          have hne : e ∉ cs := by
            intro hmem
            have hap : ∀ y ∈ cs, y = '\'' ∨ y = '’' := by simpa [tokOk] using htok
            rcases hap e hmem with h | h
            · exact (extSafe_not_apos he).1 h
            · exact (extSafe_not_apos he).2 h
          simp [matchToks, hne]
      | cons c x2 =>
        simp only [List.cons_append, matchToks]
        by_cases hc : c ∈ cs
        · rw [if_pos hc, if_pos hc]
          exact ih hok2 hwn (some c) x2
        · rw [if_neg hc, if_neg hc]
          rfl

theorem matchAlts_append {ext : List Char}
    (h1 : ∀ a, ext.head? = some a → extSafeChar a = true)
    (h2 : ∀ a, (ext.dropWhile pyWs).head? = some a → extSafeChar a = true) :
    ∀ (alts : List (List Tok)), alts.all toksOk = true →
    ∀ (prev : Option Char) (x : List Char),
    matchAlts alts prev (x ++ ext) =
      Option.map (fun pr => (pr.1, pr.2 ++ ext)) (matchAlts alts prev x) := by
  intro alts
  induction alts with
  | nil => intro _ prev x; rfl
  | cons ts alts ih =>
    intro hok prev x
    simp only [List.all_cons, Bool.and_eq_true, toksOk] at hok
    obtain ⟨⟨hts, hwn⟩, hok2⟩ := hok
    simp only [matchAlts]
    rw [matchToks_append h1 h2 ts hts hwn prev x, ih hok2 prev x, ← Option.map_orElse]

/-- Appending junction-headed text (whose own substitution result is
`extOut`) commutes with the substitution. -/
theorem reSub_append {alts : List (List Tok)} {repl ext extOut : List Char}
    (halts : alts.all toksOk = true)
    (h1 : ∀ a, ext.head? = some a → extSafeChar a = true)
    (h2 : ∀ a, (ext.dropWhile pyWs).head? = some a → extSafeChar a = true)
    (hE : ∀ prev, reSub alts repl prev ext = extOut) :
    ∀ (prev : Option Char) (x : List Char),
    reSub alts repl prev (x ++ ext) = reSub alts repl prev x ++ extOut := by
  intro prev x
  induction prev, x using reSub.induct alts repl with
  | case1 prev =>
    rw [List.nil_append, reSub_nil, List.nil_append]
    exact hE prev
  | case2 prev c rest p2 rem hm hlt ih =>
    have hma : matchAlts alts prev ((c :: rest) ++ ext) = some (p2, rem ++ ext) := by
      rw [matchAlts_append h1 h2 alts halts prev (c :: rest), hm]
      rfl
    rw [List.cons_append] at hma
    have hlt2 : (rem ++ ext).length < (rest ++ ext).length + 1 := by
      simp only [List.length_append]
      simp only [List.length_cons] at hlt
      omega
    rw [List.cons_append, reSub_cons_match hma hlt2, ih,
      reSub_cons_match hm (by simpa using hlt), List.append_assoc]
  | case3 prev c rest p2 rem hm hlt ih =>
    have hma : matchAlts alts prev ((c :: rest) ++ ext) = some (p2, rem ++ ext) := by
      rw [matchAlts_append h1 h2 alts halts prev (c :: rest), hm]
      rfl
    rw [List.cons_append] at hma
    have hlt2 : ¬ (rem ++ ext).length < (rest ++ ext).length + 1 := by
      simp only [List.length_append]
      simp only [List.length_cons] at hlt
      omega
    rw [List.cons_append, reSub_cons_match_big hma hlt2, ih,
      reSub_cons_match_big hm (by simpa using hlt), List.cons_append]
  | case4 prev c rest hm ih =>
    have hma : matchAlts alts prev ((c :: rest) ++ ext) = none := by
      rw [matchAlts_append h1 h2 alts halts prev (c :: rest), hm]
      rfl
    rw [List.cons_append] at hma
    rw [List.cons_append, reSub_cons_none hma, ih, reSub_cons_none hm, List.cons_append]

theorem pyWs_not_word {a : Char} (h : pyWs a = true) : isWordChar a = false := by
  simp [pyWs] at h
  rcases h with rfl | rfl | rfl | rfl | rfl | rfl | rfl | rfl <;> decide

theorem pyWs_not_digit {a : Char} (h : pyWs a = true) : a.isDigit = false := by
  simp [pyWs] at h
  rcases h with rfl | rfl | rfl | rfl | rfl | rfl | rfl | rfl <;> decide

theorem pyWs_extSafe {a : Char} (h : pyWs a = true) : extSafeChar a = true := by
  simp [pyWs] at h
  rcases h with rfl | rfl | rfl | rfl | rfl | rfl | rfl | rfl <;> decide

theorem pyLower_ws {a : Char} (h : pyWs a = true) : pyLower a = a := by
  simp [pyWs] at h
  rcases h with rfl | rfl | rfl | rfl | rfl | rfl | rfl | rfl <;> decide

theorem matchToks_wb_lit_none_head {c0 : Char} {s' : List Char} {ts : List Tok}
    (hc : isWordChar c0 = true) {w : Char} (hw : isWordChar w = false)
    (rest : List Char) (prev : Option Char) :
    matchToks (Tok.wb :: Tok.lit (c0 :: s') :: ts) prev (w :: rest) = none := by
  have hs : stripLit (c0 :: s') (w :: rest) = none := by
    unfold stripLit
    rw [if_neg]
    intro he
    rw [he, hw] at hc
    cases hc
  simp [matchToks, hs]

theorem matchToks_wb_digits_none_head {n : Nat} {ts : List Tok} (hn : 0 < n)
    {w : Char} (hw : w.isDigit = false) (rest : List Char) (prev : Option Char) :
    matchToks (Tok.wb :: Tok.digits n :: ts) prev (w :: rest) = none := by
  have hcond : ¬(((w :: rest).take n).length = n ∧ ((w :: rest).take n).all Char.isDigit) := by
    rintro ⟨hL, hD⟩
    have hmem : w ∈ (w :: rest).take n := by
      cases n with
      | zero => omega
      | succ m => simp [List.take_succ_cons]
    have hdig := List.all_eq_true.mp hD w hmem
    rw [hw] at hdig
    cases hdig
  simp only [matchToks]
  rw [if_neg hcond]
  simp

theorem matchToks_ws0_anyOf_none {cs : List Char} {ts : List Tok} {l : List Char}
    (h : ∀ a, (l.dropWhile pyWs).head? = some a → a ∉ cs) (prev : Option Char) :
    matchToks (Tok.ws0 :: Tok.anyOf cs :: ts) prev l = none := by
  simp only [matchToks]
  cases hd : l.dropWhile pyWs with
  | nil => rfl
  | cons a r =>
    have hna : a ∉ cs := h a (by rw [hd]; rfl)
    simp [hna]

/-- Pure whitespace is a fixed point of every tag/year substitution: the
patterns all require a word character, a digit or an apostrophe. -/
theorem reSub_allWs_id {p : List Tok} (hp : p ∈ yearToks :: tagToksList) :
    ∀ T : List Char, T.all pyWs = true → ∀ prev, reSub [p] [] prev T = T := by
  intro T
  induction T with
  | nil => intro _ prev; exact reSub_nil _ _ _
  | cons w T2 ih =>
    intro hall prev
    simp only [List.all_cons, Bool.and_eq_true] at hall
    obtain ⟨hw, hall2⟩ := hall
    have hd : (w :: T2).dropWhile pyWs = [] := by
      apply List.dropWhile_eq_nil_iff.mpr
      intro y hy
      rcases List.mem_cons.mp hy with rfl | hy2
      · exact hw
      · exact List.all_eq_true.mp hall2 y hy2
    have hwword := pyWs_not_word hw
    have hwdig := pyWs_not_digit hw
    have hmt : matchToks p prev (w :: T2) = none := by
      simp only [tagToksList, List.mem_cons, List.not_mem_nil, or_false] at hp
      rcases hp with rfl | rfl | rfl | rfl | rfl | rfl | rfl | rfl | rfl | rfl | rfl | rfl
      · exact matchToks_ws0_anyOf_none
          (fun a ha => by rw [hd] at ha; cases ha) prev
      · exact matchToks_wb_digits_none_head (by omega) hwdig _ _
      · exact matchToks_wb_lit_none_head (by decide) hwword _ _
      · exact matchToks_wb_lit_none_head (by decide) hwword _ _
      · exact matchToks_wb_lit_none_head (by decide) hwword _ _
      · exact matchToks_wb_lit_none_head (by decide) hwword _ _
      · exact matchToks_wb_lit_none_head (by decide) hwword _ _
      · exact matchToks_wb_lit_none_head (by decide) hwword _ _
      · exact matchToks_wb_lit_none_head (by decide) hwword _ _
      · exact matchToks_wb_lit_none_head (by decide) hwword _ _
      · exact matchToks_wb_lit_none_head (by decide) hwword _ _
      · exact matchToks_wb_lit_none_head (by decide) hwword _ _
    have hnm : matchAlts [p] prev (w :: T2) = none := by
      simp [matchAlts, hmt]
    rw [reSub_cons_none hnm, ih hall2 (some w)]

/-- Appending a pure-whitespace tail commutes with every tag/year
substitution. -/
theorem reSub_append_allWs {p : List Tok} (hp : p ∈ yearToks :: tagToksList)
    (hok : toksOk p = true) {T : List Char} (hT : T.all pyWs = true) :
    ∀ (prev : Option Char) (x : List Char),
    reSub [p] [] prev (x ++ T) = reSub [p] [] prev x ++ T := by
  apply reSub_append
  · simpa [toksOk] using hok
  · intro a ha
    cases T with
    | nil => cases ha
    | cons t T2 =>
      have : a = t := by
        rw [show (t :: T2).head? = some t from rfl] at ha
        exact (Option.some.inj ha).symm
      simp only [List.all_cons, Bool.and_eq_true] at hT
      rw [this]
      exact pyWs_extSafe hT.1
  · intro a ha
    have hd : T.dropWhile pyWs = [] := by
      apply List.dropWhile_eq_nil_iff.mpr
      intro y hy
      exact List.all_eq_true.mp hT y hy
    rw [hd] at ha
    cases ha
  · exact reSub_allWs_id hp T hT

theorem extCond_radio_1 : ∀ a, (strL " - radio edit").head? = some a → extSafeChar a = true := by
  intro a ha
  rw [show (strL " - radio edit").head? = some ' ' from rfl] at ha
  rw [← Option.some.inj ha]
  decide

theorem extCond_radio_2 :
    ∀ a, ((strL " - radio edit").dropWhile pyWs).head? = some a → extSafeChar a = true := by
  intro a ha
  rw [show ((strL " - radio edit").dropWhile pyWs).head? = some '-' from by decide] at ha
  rw [← Option.some.inj ha]
  decide

theorem extCond_dash_1 : ∀ a, (strL " - ").head? = some a → extSafeChar a = true := by
  intro a ha
  rw [show (strL " - ").head? = some ' ' from rfl] at ha
  rw [← Option.some.inj ha]
  decide

theorem extCond_dash_2 :
    ∀ a, ((strL " - ").dropWhile pyWs).head? = some a → extSafeChar a = true := by
  intro a ha
  rw [show ((strL " - ").dropWhile pyWs).head? = some '-' from by decide] at ha
  rw [← Option.some.inj ha]
  decide

/-- One tag/year substitution applied to `x ++ T ++ ext` with `T` pure
whitespace: both suffixes commute out. -/
theorem reSub_append2 {p : List Tok} (hp : p ∈ yearToks :: tagToksList)
    (hok : toksOk p = true) {T ext extOut : List Char} (hT : T.all pyWs = true)
    (h1 : ∀ a, ext.head? = some a → extSafeChar a = true)
    (h2 : ∀ a, (ext.dropWhile pyWs).head? = some a → extSafeChar a = true)
    (hE : ∀ prev, reSub [p] [] prev ext = extOut) (x : List Char) :
    reSub [p] [] none (x ++ T ++ ext) = reSub [p] [] none x ++ T ++ extOut := by
  rw [reSub_append (by simpa [toksOk] using hok) h1 h2 hE none (x ++ T),
    reSub_append_allWs hp hok hT none x, List.append_assoc]

theorem hE_yearRem_radio : ∀ prev,
    reSub [tagYearRem] [] prev (strL " - radio edit") = strL " - radio edit" :=
  reSub_id_of_noMatchTwo _ _ _ (by decide)

theorem hE_rem_radio : ∀ prev,
    reSub [tagRem] [] prev (strL " - radio edit") = strL " - radio edit" :=
  reSub_id_of_noMatchTwo _ _ _ (by decide)

theorem hE_singleVersion_dash : ∀ prev,
    reSub [tagSingleVersion] [] prev (strL " - ") = strL " - " :=
  reSub_id_of_noMatchTwo _ _ _ (by decide)

theorem hE_originalMix_dash : ∀ prev,
    reSub [tagOriginalMix] [] prev (strL " - ") = strL " - " :=
  reSub_id_of_noMatchTwo _ _ _ (by decide)

theorem hE_mono_dash : ∀ prev, reSub [tagMono] [] prev (strL " - ") = strL " - " :=
  reSub_id_of_noMatchTwo _ _ _ (by decide)

theorem hE_stereo_dash : ∀ prev, reSub [tagStereo] [] prev (strL " - ") = strL " - " :=
  reSub_id_of_noMatchTwo _ _ _ (by decide)

theorem hE_edit_dash : ∀ prev, reSub [tagEdit] [] prev (strL " - ") = strL " - " :=
  reSub_id_of_noMatchTwo _ _ _ (by decide)

theorem hE_version_dash : ∀ prev, reSub [tagVersion] [] prev (strL " - ") = strL " - " :=
  reSub_id_of_noMatchTwo _ _ _ (by decide)

/-- The year-stripping and the eleven tag substitutions applied to
`x ++ T ++ " - radio edit"` (with `T` pure whitespace): the radio-edit
tag is replaced by `" - "` and nothing else in the suffix is touched. -/
theorem tagChain_append (x : List Char) {T : List Char} (hT : T.all pyWs = true) :
    applyTags (reSub [yearToks] [] none (x ++ T ++ strL " - radio edit")) =
      applyTags (reSub [yearToks] [] none x) ++ T ++ strL " - " := by
  unfold applyTags tagToksList
  simp only [List.foldl_cons, List.foldl_nil]
  rw [reSub_append2 (by decide) (by decide) hT extCond_radio_1 extCond_radio_2 hE_year_radio x,
    reSub_append2 (by decide) (by decide) hT extCond_radio_1 extCond_radio_2 hE_remYear_radio _,
    reSub_append2 (by decide) (by decide) hT extCond_radio_1 extCond_radio_2 hE_yearRem_radio _,
    reSub_append2 (by decide) (by decide) hT extCond_radio_1 extCond_radio_2 hE_rem_radio _,
    reSub_append2 (by decide) (by decide) hT extCond_radio_1 extCond_radio_2 hE_radioEdit _,
    reSub_append2 (by decide) (by decide) hT extCond_dash_1 extCond_dash_2 hE_singleVersion_dash _,
    reSub_append2 (by decide) (by decide) hT extCond_dash_1 extCond_dash_2 hE_originalMix_dash _,
    reSub_append2 (by decide) (by decide) hT extCond_dash_1 extCond_dash_2 hE_mono_dash _,
    reSub_append2 (by decide) (by decide) hT extCond_dash_1 extCond_dash_2 hE_stereo_dash _,
    reSub_append2 (by decide) (by decide) hT extCond_dash_1 extCond_dash_2 hE_edit_dash _,
    reSub_append2 (by decide) (by decide) hT extCond_dash_1 extCond_dash_2 hE_mix_dash _,
    reSub_append2 (by decide) (by decide) hT extCond_dash_1 extCond_dash_2 hE_version_dash _]

theorem sth_hyphen {l : List Char} (h : (rtrimBy pyWs l).getLast? = some '-') :
    stripTrailingHyphen l = rtrimBy pyWs (rtrimBy pyWs l).dropLast := by
  unfold stripTrailingHyphen
  simp [h]

/-- The trailing-hyphen removal on `G ++ T ++ " - "` (with `T` pure
whitespace) erases the appended hyphen together with all whitespace
around it, leaving the right-trimmed `G`. -/
theorem sth_append_dash {G T : List Char} (hT : T.all pyWs = true) :
    stripTrailingHyphen (G ++ T ++ strL " - ") = rtrimBy pyWs G := by
  have hsplit : G ++ T ++ strL " - " = ((G ++ T) ++ [' ', '-']) ++ [' '] := by
    simp [strL]
  have hr1 : rtrimBy pyWs (G ++ T ++ strL " - ") = (G ++ T) ++ [' ', '-'] := by
    rw [hsplit, rtrim_append_ws _ [' '] (by decide)]
    apply rtrim_eq_self_of_getLast
    intro x hx
    rw [List.getLast?_append_of_ne_nil _ (by decide)] at hx
    have hx2 : x = '-' := by
      rw [show ([' ', '-'] : List Char).getLast? = some '-' from rfl] at hx
      exact (Option.some.inj hx).symm
    rw [hx2]
    decide
  have hlast : (rtrimBy pyWs (G ++ T ++ strL " - ")).getLast? = some '-' := by
    rw [hr1, List.getLast?_append_of_ne_nil _ (by decide)]
    rfl
  rw [sth_hyphen hlast, hr1]
  have hdl : ((G ++ T) ++ [' ', '-']).dropLast = (G ++ T) ++ [' '] := by
    rw [show (G ++ T) ++ [' ', '-'] = ((G ++ T) ++ [' ']) ++ ['-'] by simp]
    exact List.dropLast_concat
  rw [hdl, rtrim_append_ws _ [' '] (by decide), rtrim_append_ws _ T hT]

theorem collapseWsGo_allWs_true : ∀ {T : List Char}, T.all pyWs = true →
    collapseWsGo true T = [] := by
  intro T
  induction T with
  | nil => intro _; rfl
  | cons w T2 ih =>
    intro hall
    simp only [List.all_cons, Bool.and_eq_true] at hall
    unfold collapseWsGo
    rw [if_pos hall.1, if_pos rfl]
    exact ih hall.2

theorem collapseWsGo_allWs (b : Bool) {T : List Char} (hT : T.all pyWs = true) :
    collapseWsGo b T = [] ∨ collapseWsGo b T = [' '] := by
  cases T with
  | nil => left; rfl
  | cons w T2 =>
    simp only [List.all_cons, Bool.and_eq_true] at hT
    cases b with
    | true => left; exact collapseWsGo_allWs_true (by simp [hT.1, hT.2])
    | false =>
      right
      unfold collapseWsGo
      rw [if_pos hT.1]
      simp only [Bool.false_eq_true, if_false]
      rw [collapseWsGo_allWs_true hT.2]

/-- Appending trailing whitespace to the collapse stage's input adds at
most a single trailing space to its output. -/
theorem collapseWsGo_append_ws {T : List Char} (hT : T.all pyWs = true) :
    ∀ (x : List Char) (b : Bool),
    collapseWsGo b (x ++ T) = collapseWsGo b x ∨
      collapseWsGo b (x ++ T) = collapseWsGo b x ++ [' '] := by
  intro x
  induction x with
  | nil =>
    intro b
    rcases collapseWsGo_allWs b hT with h | h
    · left; rw [List.nil_append, h]; rfl
    · right; rw [List.nil_append, h]; rfl
  | cons c x2 ih =>
    intro b
    rw [List.cons_append]
    unfold collapseWsGo
    by_cases hc : pyWs c = true
    · rw [if_pos hc, if_pos hc]
      cases b with
      | true =>
        simp only [if_pos rfl]
        exact ih true
      | false =>
        simp only [Bool.false_eq_true, if_false]
        rcases ih true with h | h
        · left; rw [h]
        · right; rw [h]; rfl
    · rw [if_neg hc, if_neg hc]
      rcases ih false with h | h
      · left; rw [h]
      · right; rw [h]; rfl

theorem pyStrip_append_space (y : List Char) : pyStrip (y ++ [' ']) = pyStrip y := by
  unfold pyStrip
  exact trim_append_ws _ [' '] (by decide)

/-- `rtrimBy` of an all-`p` list is empty. -/
theorem rtrim_allp {p : Char → Bool} {l : List Char} (h : ∀ x ∈ l, p x = true) :
    rtrimBy p l = [] := by
  unfold rtrimBy
  rw [List.dropWhile_eq_nil_iff.mpr (fun x hx => h x (List.mem_reverse.mp hx))]
  rfl

/-- Stripping whitespace off a string whose stripped form is nonempty and
whose appended tail starts at a junction: the tail and the buried trailing
whitespace of `u` survive, everything else is as before. -/
theorem pyStrip_append_decomp {u ext : List Char} (hne : pyStrip u ≠ [])
    (hext_last : ∀ x, ext.getLast? = some x → pyWs x = false) (hext_ne : ext ≠ []) :
    ∃ T, T.all pyWs = true ∧ pyStrip (u ++ ext) = pyStrip u ++ T ++ ext := by
  obtain ⟨hdec, hTws⟩ := rtrim_decomp pyWs u
  refine ⟨(u.reverse.takeWhile pyWs).reverse, hTws, ?_⟩
  have hr : rtrimBy pyWs (u ++ ext) = u ++ ext := by
    apply rtrim_eq_self_of_getLast
    intro x hx
    rw [List.getLast?_append_of_ne_nil _ hext_ne] at hx
    exact hext_last x hx
  have hu : List.dropWhile pyWs u ≠ [] := by
    intro hdw
    apply hne
    have hall : ∀ x ∈ u, pyWs x = true := List.dropWhile_eq_nil_iff.mp hdw
    show trimBy pyWs u = []
    unfold trimBy
    rw [rtrim_allp hall]
    rfl
  have hl : List.dropWhile pyWs (u ++ ext) = List.dropWhile pyWs u ++ ext := by
    rw [List.dropWhile_append,
      if_neg (by rw [isEmpty_false_of_ne_nil hu]; exact Bool.false_ne_true)]
  have hrne : List.dropWhile pyWs (rtrimBy pyWs u) ≠ [] := by
    intro hdw
    apply hne
    show trimBy pyWs u = []
    unfold trimBy ltrimBy
    exact hdw
  have hsplit : List.dropWhile pyWs u =
      List.dropWhile pyWs (rtrimBy pyWs u) ++ (u.reverse.takeWhile pyWs).reverse := by
    conv_lhs => rw [← hdec]
    rw [List.dropWhile_append,
      if_neg (by rw [isEmpty_false_of_ne_nil hrne]; exact Bool.false_ne_true)]
  show trimBy pyWs (u ++ ext) = trimBy pyWs u ++ _ ++ ext
  unfold trimBy ltrimBy
  rw [hr, hl, hsplit, List.append_assoc]

/-- Appending ` - Radio Edit` to a title with no trailing quote keeps the
cleaned title as a prefix: only the title's buried trailing whitespace
`T` and the tag itself follow it. -/
theorem clean_append_radio (l : List Char)
    (hq : ∀ x, l.getLast? = some x → x ≠ '"')
    (h0 : clean_song_title_l l ≠ []) :
    ∃ T, T.all pyWs = true ∧
      clean_song_title_l (l ++ strL " - Radio Edit") =
        clean_song_title_l l ++ T ++ strL " - Radio Edit" := by
  have hql : rtrimBy (fun c => c = '"') l = l :=
    rtrim_eq_self_of_getLast _ (fun x hx => decide_eq_false (hq x hx))
  have h1 : trimBy (fun c => c = '"') (l ++ strL " - Radio Edit") =
      trimBy (fun c => c = '"') l ++ strL " - Radio Edit" := by
    show ltrimBy _ (rtrimBy _ _) = _
    rw [rtrim_eq_self_of_getLast _ (fun x hx => by
      rw [List.getLast?_append_of_ne_nil _ (by decide)] at hx
      have hx2 : x = 't' := by
        rw [show (strL " - Radio Edit").getLast? = some 't' from by decide] at hx
        exact (Option.some.inj hx).symm
      rw [hx2]
      decide)]
    unfold trimBy ltrimBy
    rw [hql]
    exact dropWhile_append_of_ext_head (by intro a ha; cases ha; decide) l
  unfold clean_song_title_l
  rw [h1, rb_append_no_closers (by decide) (by decide) _]
  exact pyStrip_append_decomp h0
    (by
      intro x hx
      rw [show (strL " - Radio Edit").getLast? = some 't' from by decide] at hx
      rw [← Option.some.inj hx]
      decide)
    (by decide)

/-- The tag-stripping stage maps `s ++ " - Radio Edit"` to the stripped
`s` followed by buried whitespace and `" - "`. -/
theorem tagStripped_append_radio (l : List Char)
    (hq : ∀ x, l.getLast? = some x → x ≠ '"')
    (h0 : clean_song_title_l l ≠ []) :
    ∃ T, T.all pyWs = true ∧
      tagStripped (l ++ strL " - Radio Edit") = tagStripped l ++ T ++ strL " - " := by
  obtain ⟨T, hT, hclean⟩ := clean_append_radio l hq h0
  refine ⟨T, hT, ?_⟩
  unfold tagStripped
  rw [hclean, List.map_append, List.map_append]
  have hmT : T.map pyLower = T :=
    list_map_eq_self (fun x hx => pyLower_ws (List.all_eq_true.mp hT x hx))
  have hmE : (strL " - Radio Edit").map pyLower = strL " - radio edit" := by decide
  rw [hmT, hmE]
  exact tagChain_append _ hT

theorem key_append_radio (l : List Char)
    (hq : ∀ x, l.getLast? = some x → x ≠ '"')
    (h0 : clean_song_title_l l ≠ [])
    (h3 : stripTrailingHyphen (tagStripped l) = tagStripped l) :
    base_song_key_l (l ++ strL " - Radio Edit") = base_song_key_l l := by
  obtain ⟨T, hT, hts⟩ := tagStripped_append_radio l hq h0
  unfold base_song_key_l
  rw [hts, sth_append_dash hT, h3]
  obtain ⟨hdec, hT2⟩ := rtrim_decomp pyWs (tagStripped l)
  conv_rhs => rw [← hdec]
  rcases collapseWsGo_append_ws hT2 (rtrimBy pyWs (tagStripped l)) false with h | h
  · rw [h]
  · rw [h, pyStrip_append_space]

theorem key_append_remaster (l : List Char)
    (hq : ∀ x, l.getLast? = some x → x ≠ '"')
    (hp : parenOk (trimBy (fun c => c = '"') l) = true) :
    base_song_key_l (l ++ strL " (2011 Remaster)") = base_song_key_l l := by
  unfold base_song_key_l tagStripped
  rw [clean_append_remaster l hq hp]

set_option maxHeartbeats 4000000 in
/-- C5 counterexample: a title ending in a double quote.  The cleaning
step strips the quote from the bare title but not from the tagged
variants (where the quote is no longer at the edge), so the keys differ. -/
theorem c5_counterexample_trailing_quote :
    base_song_key ("a\"" ++ " (2011 Remaster)") ≠ base_song_key "a\"" ∧
    base_song_key ("a\"" ++ " - Radio Edit") ≠ base_song_key "a\"" := by
  have h1 : (base_song_key "a\"").data = strL "a" := by
    simp [base_song_key, base_song_key_l, tagStripped, applyTags, tagToksList, tagRemYear,
      tagYearRem, tagRem, tagRadioEdit, tagSingleVersion, tagOriginalMix, tagMono, tagStereo,
      tagEdit, tagMix, tagVersion, yearToks, reSub, matchAlts, matchToks, stripLit, boundary,
      isWordChar, pyWs, lastOr, pyLower, clean_song_title_l, pyStrip, trimBy, ltrimBy,
      rtrimBy, removeBrackets, findCloseIdx, stripTrailingHyphen, collapseWsGo, strL,
      String.data]
  have h2 : (base_song_key ("a\"" ++ " (2011 Remaster)")).data = strL "a\"" := by
    simp [base_song_key, base_song_key_l, tagStripped, applyTags, tagToksList, tagRemYear,
      tagYearRem, tagRem, tagRadioEdit, tagSingleVersion, tagOriginalMix, tagMono, tagStereo,
      tagEdit, tagMix, tagVersion, yearToks, reSub, matchAlts, matchToks, stripLit, boundary,
      isWordChar, pyWs, lastOr, pyLower, clean_song_title_l, pyStrip, trimBy, ltrimBy,
      rtrimBy, removeBrackets, findCloseIdx, stripTrailingHyphen, collapseWsGo, strL,
      String.data]
  have h3 : (base_song_key ("a\"" ++ " - Radio Edit")).data = strL "a\"" := by
    simp [base_song_key, base_song_key_l, tagStripped, applyTags, tagToksList, tagRemYear,
      tagYearRem, tagRem, tagRadioEdit, tagSingleVersion, tagOriginalMix, tagMono, tagStereo,
      tagEdit, tagMix, tagVersion, yearToks, reSub, matchAlts, matchToks, stripLit, boundary,
      isWordChar, pyWs, lastOr, pyLower, clean_song_title_l, pyStrip, trimBy, ltrimBy,
      rtrimBy, removeBrackets, findCloseIdx, stripTrailingHyphen, collapseWsGo, strL,
      String.data]
  constructor
  · intro he
    have hd : (base_song_key ("a\"" ++ " (2011 Remaster)")).data =
        (base_song_key "a\"").data := by rw [he]
    rw [h2, h1] at hd
    exact absurd hd (by decide)
  · intro he
    have hd : (base_song_key ("a\"" ++ " - Radio Edit")).data =
        (base_song_key "a\"").data := by rw [he]
    rw [h3, h1] at hd
    exact absurd hd (by decide)

/-- C5 (amended): for every title `s` with no trailing double quote,
whose quote-trimmed form is paren-safe, whose cleaned form is nonempty,
and whose tag-stripped form does not itself end in a hyphen,
`base_song_key (s ++ " (2011 Remaster)") = base_song_key s` and
`base_song_key (s ++ " - Radio Edit") = base_song_key s`. -/
theorem c5_tag_suffix_key_invariance (s : String)
    (hq : ∀ x, s.data.getLast? = some x → x ≠ '"')
    (hp : parenOk (trimBy (fun c => c = '"') s.data) = true)
    (h0 : clean_song_title s ≠ "")
    (h3 : stripTrailingHyphen (tagStripped s.data) = tagStripped s.data) :
    base_song_key (s ++ " (2011 Remaster)") = base_song_key s ∧
    base_song_key (s ++ " - Radio Edit") = base_song_key s := by
  have h0l : clean_song_title_l s.data ≠ [] := by
    intro he
    apply h0
    unfold clean_song_title
    rw [he]
  constructor
  · unfold base_song_key
    rw [String.data_append,
      show (" (2011 Remaster)" : String).data = strL " (2011 Remaster)" from rfl,
      key_append_remaster s.data hq hp]
  · unfold base_song_key
    rw [String.data_append,
      show (" - Radio Edit" : String).data = strL " - Radio Edit" from rfl,
      key_append_radio s.data hq h0l h3]

set_option maxHeartbeats 4000000 in
theorem c5_tag_suffix_key_invariance_witness :
    base_song_key ("hello" ++ " (2011 Remaster)") = base_song_key "hello" ∧
    base_song_key ("hello" ++ " - Radio Edit") = base_song_key "hello" := by
  have hts : tagStripped (("hello" : String).data) = strL "hello" := by
    simp [base_song_key, base_song_key_l, tagStripped, applyTags, tagToksList, tagRemYear,
      tagYearRem, tagRem, tagRadioEdit, tagSingleVersion, tagOriginalMix, tagMono, tagStereo,
      tagEdit, tagMix, tagVersion, yearToks, reSub, matchAlts, matchToks, stripLit, boundary,
      isWordChar, pyWs, lastOr, pyLower, clean_song_title_l, pyStrip, trimBy, ltrimBy,
      rtrimBy, removeBrackets, findCloseIdx, stripTrailingHyphen, collapseWsGo, strL,
      String.data]
  refine c5_tag_suffix_key_invariance "hello" ?_ ?_ ?_ ?_
  · intro x hx
    rw [show ("hello" : String).data.getLast? = some 'o' from by decide] at hx
    rw [← Option.some.inj hx]
    decide
  · simp [parenOk, findCloseIdx, trimBy, ltrimBy, rtrimBy, strL, String.data]
  · have hh : clean_song_title "hello" = "hello" := by
      simp [clean_song_title, clean_song_title_l, pyStrip, trimBy, ltrimBy, rtrimBy,
        removeBrackets, findCloseIdx, pyWs]
    rw [hh]
    decide
  · rw [hts]
    decide

end EveryNumberOne
